import Mathlib

/-!
Shallow embedding of contrib/ltree/ltree_io.c: the helpers
count_lquery_parts_ors, copy_unescaped and copy_escaped, the label-path
decoder ltree_in, the label-path encoder ltree_out, and the pattern decoder
lquery_in, together with proofs about them.

Input text is modelled as a list of multibyte characters, each character
being the list of its bytes; pg_mblen is the byte count of a character.
Splitting a valid byte string into characters is injective for the server
encodings, so working at the character level is faithful to the byte-level C.
-/

set_option maxHeartbeats 1000000

/-- One multibyte character of the input: the list of its bytes.
pg_mblen of the character is its length. -/
abbrev MChar := List Nat

/-- A text: the list of its multibyte characters. -/
abbrev MStr := List MChar

/-- Total byte length of a text (the pointer distance across it in the C). -/
def lenB (s : MStr) : Nat := (s.map List.length).sum

/-- t_iseq(ptr, b): compare the first byte at ptr with the byte b. -/
def t_iseq : MChar → Nat → Bool
  | [], _ => false
  | b' :: _, b => b' == b

/-- The guarded test charlen == 1 && t_iseq(ptr, b) used throughout the C. -/
def isOne (c : MChar) (b : Nat) : Bool := c.length == 1 && t_iseq c b

/-- t_isdigit(ptr): the first byte is an ASCII digit. -/
def t_isdigit : MChar → Bool
  | [] => false
  | b :: _ => 48 ≤ b && b ≤ 57

/-- Well-formed character of a server encoding: either a single byte in
1..255, or at least two bytes all with the high bit set. -/
def mcharOkb : MChar → Bool
  | [b] => 0 < b && b < 256
  | c => 2 ≤ c.length && c.all (fun b => 128 ≤ b && b < 256)

/-- atoi(ptr): accumulate consecutive ASCII digit bytes from the current
position. Only called by the C when the current character is a digit. -/
def atoiAux (acc : Nat) : MStr → Nat
  | [] => acc
  | c :: rest => if t_isdigit c then atoiAux (10 * acc + (c.headD 0 - 48)) rest else acc

/-- atoi starting with accumulator 0. -/
def atoi (s : MStr) : Nat := atoiAux 0 s

/-- The loop body of count_lquery_parts_ors: counts of unescaped dots and
unescaped pipes, with the escape_mode flag. -/
def countAux : MStr → Bool → Nat × Nat
  | [], _ => (0, 0)
  | c :: rest, esc =>
    if esc then countAux rest false
    else if isOne c 92 then countAux rest true
    else if isOne c 46 then ((countAux rest false).1 + 1, (countAux rest false).2)
    else if isOne c 124 then ((countAux rest false).1, (countAux rest false).2 + 1)
    else countAux rest false

/-- count_lquery_parts_ors(ptr, &levels, &ORs): the final (*plevels, *pORs),
each one more than the corresponding delimiter count. -/
def count_lquery_parts_ors (s : MStr) : Nat × Nat :=
  ((countAux s false).1 + 1, (countAux s false).2 + 1)

/-- The error classes raised by the two decoders (the ereport/elog calls). -/
inductive PErr where
  | unchar (pos : Nat)
  | nameTooLong (wlen pos : Nat)
  | eol
  | levelLimit (n m : Nat)
  | range (low high : Nat)
  | internalErr
deriving DecidableEq

/-- copy_unescaped(src, dst, max_len): copy characters while dropping one
backslash before each escaped character, stopping once max_len destination
bytes are written; the internal-error branch fires when a character would
overflow the bound mid-copy. -/
def copyUnescAux : MStr → Nat → Nat → Bool → Except PErr MStr
  | [], _, _, _ => .ok []
  | c :: rest, maxLen, copied, escaping =>
    if maxLen ≤ copied then .ok []
    else if isOne c 92 && !escaping then copyUnescAux rest maxLen copied true
    else if maxLen < copied + c.length then .error .internalErr
    else
      match copyUnescAux rest maxLen (copied + c.length) false with
      | .error e => .error e
      | .ok out => .ok (c :: out)

/-- copy_unescaped from the start of the source. -/
def copy_unescaped (src : MStr) (maxLen : Nat) : Except PErr MStr :=
  copyUnescAux src maxLen 0 false

/-- copy_escaped(src, dst, len, to_escape): copy len source bytes, inserting
a backslash before every single-byte character whose byte is in to_escape;
returns the written characters and the number of inserted escapes. -/
def copyEscAux : MStr → Nat → Nat → List Nat → Except PErr (MStr × Nat)
  | [], _, _, _ => .ok ([], 0)
  | c :: rest, len, copied, toE =>
    if len ≤ copied then .ok ([], 0)
    else if len < copied + c.length then .error .internalErr
    else
      match copyEscAux rest len (copied + c.length) toE with
      | .error e => .error e
      | .ok (out, n) =>
        if c.length == 1 && toE.contains (c.headD 0) then .ok ([92] :: c :: out, n + 1)
        else .ok (c :: out, n)

/-- copy_escaped from the start of the source. -/
def copy_escaped (src : MStr) (len : Nat) (toE : List Nat) : Except PErr (MStr × Nat) :=
  copyEscAux src len 0 toE

/-! ### Analysis helpers for escaped spans -/

/-- The unescaped character sequence of a raw span: drop one backslash
before each escaped character (what copy_unescaped writes, character-wise). -/
def unesc : MStr → MStr
  | [] => []
  | c :: rest =>
    if c = [92] then
      match rest with
      | [] => []
      | d :: rest' => d :: unesc rest'
    else c :: unesc rest

/-- A span is well escaped when no backslash dangles at its end. -/
def wellEsc : MStr → Bool
  | [] => true
  | c :: rest =>
    if c = [92] then
      match rest with
      | [] => false
      | _ :: rest' => wellEsc rest'
    else wellEsc rest

@[simp] theorem lenB_nil : lenB ([] : MStr) = 0 := rfl

@[simp] theorem lenB_cons (c : MChar) (s : MStr) : lenB (c :: s) = c.length + lenB s := by
  simp [lenB]

@[simp] theorem lenB_append (a b : MStr) : lenB (a ++ b) = lenB a + lenB b := by
  simp [lenB]

theorem isOne_iff {c : MChar} {b : Nat} : isOne c b = true ↔ c = [b] := by
  cases c with
  | nil => simp [isOne, t_iseq]
  | cons x xs =>
    cases xs with
    | nil => simp [isOne, t_iseq]
    | cons y ys => simp [isOne, t_iseq]

theorem isOne_single (b a : Nat) : isOne [b] a = (b == a) := by
  simp [isOne, t_iseq]

theorem t_isdigit_single (b : Nat) : t_isdigit [b] = (48 ≤ b && b ≤ 57) := rfl

theorem isOne_eq_false_of_ne {c : MChar} {b : Nat} (h : c ≠ [b]) : isOne c b = false := by
  cases h' : isOne c b
  · rfl
  · exact absurd (isOne_iff.mp h') h

theorem wellEsc_noesc : ∀ {s : MStr}, (∀ c ∈ s, c ≠ [92]) → wellEsc s = true := by
  intro s
  induction s with
  | nil => intro _; rfl
  | cons c rest ih =>
    intro h
    have hc : c ≠ [92] := h c (by simp)
    rw [wellEsc.eq_def]
    simp [hc]
    exact ih (fun d hd => h d (by simp [hd]))

theorem unesc_noesc : ∀ {s : MStr}, (∀ c ∈ s, c ≠ [92]) → unesc s = s := by
  intro s
  induction s with
  | nil => intro _; rfl
  | cons c rest ih =>
    intro h
    have hc : c ≠ [92] := h c (by simp)
    rw [unesc.eq_def]
    simp [hc]
    exact ih (fun d hd => h d (by simp [hd]))

theorem wellEsc_append_noesc : ∀ {a : MStr} (b : MStr), wellEsc a = true →
    (∀ c ∈ b, c ≠ [92]) → wellEsc (a ++ b) = true := by
  intro a
  induction a using wellEsc.induct with
  | case1 =>
    intro b _ hb
    simpa using wellEsc_noesc hb
  | case2 => intro b ha _; simp [wellEsc] at ha
  | case3 d rest' ih =>
    intro b ha hb
    have ha' : wellEsc rest' = true := by simpa [wellEsc] using ha
    simp only [List.cons_append]
    simp [wellEsc]
    exact ih b ha' hb
  | case4 d rest' hd ih =>
    intro b ha hb
    rw [wellEsc.eq_def] at ha
    simp [hd] at ha
    simp only [List.cons_append]
    rw [wellEsc.eq_def]
    simp [hd]
    exact ih b ha hb

theorem unesc_append_noesc : ∀ {a : MStr} (b : MStr), wellEsc a = true →
    (∀ c ∈ b, c ≠ [92]) → unesc (a ++ b) = unesc a ++ b := by
  intro a
  induction a using wellEsc.induct with
  | case1 =>
    intro b _ hb
    simpa using unesc_noesc hb
  | case2 => intro b ha _; simp [wellEsc] at ha
  | case3 d rest' ih =>
    intro b ha hb
    have ha' : wellEsc rest' = true := by simpa [wellEsc] using ha
    simp only [List.cons_append]
    simp [unesc]
    exact ih b ha' hb
  | case4 d rest' hd ih =>
    intro b ha hb
    rw [wellEsc.eq_def] at ha
    simp [hd] at ha
    simp only [List.cons_append]
    rw [unesc.eq_def, unesc.eq_def]
    simp [hd]
    exact ih b ha hb

theorem wellEsc_snoc_plain {s : MStr} {c : MChar} (hs : wellEsc s = true)
    (hc : c ≠ [92]) : wellEsc (s ++ [c]) = true :=
  wellEsc_append_noesc [c] hs (by intro d hd; simp at hd; simpa [hd])

theorem unesc_snoc_plain {s : MStr} {c : MChar} (hs : wellEsc s = true)
    (hc : c ≠ [92]) : unesc (s ++ [c]) = unesc s ++ [c] :=
  unesc_append_noesc [c] hs (by intro d hd; simp at hd; simpa [hd])

theorem wellEsc_snoc_esc {s : MStr} (hs : wellEsc s = true) (d : MChar) :
    wellEsc (s ++ [[92], d]) = true := by
  induction s using wellEsc.induct with
  | case1 => simp [wellEsc]
  | case2 => simp [wellEsc] at hs
  | case3 x rest' ih =>
    have hs' : wellEsc rest' = true := by simpa [wellEsc] using hs
    simp only [List.cons_append]
    simp [wellEsc]
    exact ih hs'
  | case4 x rest' hx ih =>
    rw [wellEsc.eq_def] at hs
    simp [hx] at hs
    simp only [List.cons_append]
    rw [wellEsc.eq_def]
    simp [hx]
    exact ih hs

theorem unesc_snoc_esc {s : MStr} (hs : wellEsc s = true) (d : MChar) :
    unesc (s ++ [[92], d]) = unesc s ++ [d] := by
  induction s using wellEsc.induct with
  | case1 => simp [unesc]
  | case2 => simp [wellEsc] at hs
  | case3 x rest' ih =>
    have hs' : wellEsc rest' = true := by simpa [wellEsc] using hs
    simp only [List.cons_append]
    simp [unesc]
    exact ih hs'
  | case4 x rest' hx ih =>
    rw [wellEsc.eq_def] at hs
    simp [hx] at hs
    simp only [List.cons_append]
    rw [unesc.eq_def, unesc.eq_def]
    simp [hx]
    exact ih hs

theorem unesc_subset {s : MStr} {c : MChar} (h : c ∈ unesc s) : c ∈ s := by
  induction s using unesc.induct with
  | case1 => simpa [unesc] using h
  | case2 => simp [unesc] at h
  | case3 d rest' ih =>
    simp [unesc] at h
    rcases h with h | h
    · simp [h]
    · simp [ih h]
  | case4 d rest' hd ih =>
    rw [unesc.eq_def] at h
    simp [hd] at h
    rcases h with h | h
    · simp [h]
    · simp [ih h]

theorem unesc_ne_nil {s : MStr} (hw : wellEsc s = true) (hs : s ≠ []) :
    unesc s ≠ [] := by
  induction s using unesc.induct with
  | case1 => exact absurd rfl hs
  | case2 => simp [wellEsc] at hw
  | case3 d rest' ih => simp [unesc]
  | case4 d rest' hd ih =>
    rw [unesc.eq_def]
    simp [hd]

theorem copyAux_stop (t : MStr) (n copied : Nat) (e : Bool) (h : n ≤ copied) :
    copyUnescAux t n copied e = .ok [] := by
  cases t with
  | nil => rfl
  | cons c rest => simp [copyUnescAux, h]

theorem copyAux_spec (s : MStr) : ∀ (sfx pre post : MStr) (copied : Nat),
    wellEsc s = true → (∀ c ∈ s, c ≠ []) → unesc s = pre ++ post →
    copyUnescAux (s ++ sfx) (copied + lenB pre) copied false = .ok pre := by
  induction s using unesc.induct with
  | case1 =>
    intro sfx pre post copied hw hne hsplit
    have hpre : pre = [] := by
      have h0 : ([] : MStr) = pre ++ post := by simpa [unesc] using hsplit
      exact (List.append_eq_nil.mp h0.symm).1
    subst hpre
    simpa using copyAux_stop sfx copied copied false (le_refl _)
  | case2 =>
    intro sfx pre post copied hw hne hsplit
    simp [wellEsc] at hw
  | case3 d rest' ih =>
    intro sfx pre post copied hw hne hsplit
    have hw' : wellEsc rest' = true := by simpa [wellEsc] using hw
    simp [unesc] at hsplit
    cases pre with
    | nil => simpa using copyAux_stop _ copied copied false (le_refl _)
    | cons p pre' =>
      simp only [List.cons_append] at hsplit
      injection hsplit with hdp hrest
      subst hdp
      have hdne : d ≠ [] := hne d (by simp)
      have hdlen : 0 < d.length := List.length_pos.mpr hdne
      have h1 : ¬ (copied + lenB (d :: pre') ≤ copied) := by
        simp only [lenB_cons]; omega
      have h2 : ¬ (copied + lenB (d :: pre') < copied + d.length) := by
        simp only [lenB_cons]; omega
      show copyUnescAux (([92] :: d :: rest') ++ sfx) (copied + lenB (d :: pre')) copied false
          = .ok (d :: pre')
      simp only [List.cons_append]
      rw [copyUnescAux, if_neg h1]
      have hb : (isOne [92] 92 && !false) = true := by decide
      rw [if_pos hb, copyUnescAux, if_neg h1]
      have hb2 : (isOne d 92 && !true) = false := by simp
      rw [hb2]
      simp only [Bool.false_eq_true, if_false]
      rw [if_neg h2]
      have harg : copied + lenB (d :: pre') = copied + d.length + lenB pre' := by
        simp only [lenB_cons]; omega
      rw [harg, ih sfx pre' post (copied + d.length) hw'
        (fun c hc => hne c (by simp [hc])) hrest]
  | case4 d rest' hd ih =>
    intro sfx pre post copied hw hne hsplit
    rw [wellEsc.eq_def] at hw
    simp [hd] at hw
    rw [unesc.eq_def] at hsplit
    simp [hd] at hsplit
    cases pre with
    | nil => simpa using copyAux_stop _ copied copied false (le_refl _)
    | cons p pre' =>
      simp only [List.cons_append] at hsplit
      injection hsplit with hdp hrest
      subst hdp
      have hdne : d ≠ [] := hne d (by simp)
      have hdlen : 0 < d.length := List.length_pos.mpr hdne
      have h1 : ¬ (copied + lenB (d :: pre') ≤ copied) := by
        simp only [lenB_cons]; omega
      have h2 : ¬ (copied + lenB (d :: pre') < copied + d.length) := by
        simp only [lenB_cons]; omega
      show copyUnescAux ((d :: rest') ++ sfx) (copied + lenB (d :: pre')) copied false
          = .ok (d :: pre')
      simp only [List.cons_append]
      rw [copyUnescAux, if_neg h1]
      have hb : (isOne d 92 && !false) = false := by
        simp [isOne_eq_false_of_ne hd]
      rw [hb]
      simp only [Bool.false_eq_true, if_false]
      rw [if_neg h2]
      have harg : copied + lenB (d :: pre') = copied + d.length + lenB pre' := by
        simp only [lenB_cons]; omega
      rw [harg, ih sfx pre' post (copied + d.length) hw
        (fun c hc => hne c (by simp [hc])) hrest]

/-- copy_unescaped on a well-escaped span: cutting the unescaped sequence at a
character boundary of byte length n yields exactly that prefix, with no
internal error, regardless of what follows the span. -/
theorem copy_unescaped_spec {s : MStr} (sfx pre post : MStr)
    (hw : wellEsc s = true) (hne : ∀ c ∈ s, c ≠ [])
    (hsplit : unesc s = pre ++ post) :
    copy_unescaped (s ++ sfx) (lenB pre) = .ok pre := by
  have := copyAux_spec s sfx pre post 0 hw hne hsplit
  simpa [copy_unescaped] using this

/-! ### ltree_in / ltree_out -/

/-- Scratch data recorded per name by the scanning pass of ltree_in
(the nodeitem): the raw character span of the name (from lptr->start up to
the delimiter), its character count wlen, and the escaped_count at close
time. lptr->len is recovered as the span's byte length minus escaped. -/
structure nodeitem where
  span : MStr
  wlen : Nat
  escaped : Nat
deriving DecidableEq

/-- lptr->len = ptr - lptr->start - escaped_count, in bytes. -/
def nodeitem.len (it : nodeitem) : Nat := lenB it.span - it.escaped

/-- The LTPRS_* states of the ltree_in scanner. -/
inductive LtS where
  | waitName | waitDelim | waitEscaped
deriving DecidableEq

/-- The character loop of ltree_in: records one nodeitem per name, raising
the syntax and name-too-long errors exactly where the C does. -/
def ltScan : MStr → Nat → LtS → nodeitem → List nodeitem → Except PErr (List nodeitem)
  | [], pos, st, cur, acc =>
    match st with
    | .waitDelim =>
      if 255 < cur.wlen then .error (.nameTooLong cur.wlen pos)
      else .ok (acc ++ [cur])
    | .waitName => if acc.isEmpty then .ok [] else .error .eol
    | .waitEscaped => .error .eol
  | c :: rest, pos, st, cur, acc =>
    match st with
    | .waitName =>
      if isOne c 46 then .error (.unchar pos)
      else if isOne c 92 then ltScan rest (pos + 1) .waitEscaped ⟨[c], 0, 0⟩ acc
      else ltScan rest (pos + 1) .waitDelim ⟨[c], 1, 0⟩ acc
    | .waitEscaped =>
      ltScan rest (pos + 1) .waitDelim ⟨cur.span ++ [c], cur.wlen + 1, cur.escaped + 1⟩ acc
    | .waitDelim =>
      if isOne c 46 then
        if 255 < cur.wlen then .error (.nameTooLong cur.wlen pos)
        else ltScan rest (pos + 1) .waitName ⟨[], 0, 0⟩ (acc ++ [cur])
      else if isOne c 92 then
        ltScan rest (pos + 1) .waitEscaped ⟨cur.span ++ [c], cur.wlen, cur.escaped⟩ acc
      else ltScan rest (pos + 1) .waitDelim ⟨cur.span ++ [c], cur.wlen + 1, cur.escaped⟩ acc

/-- One stored level of an ltree record: the uint16 length field and the
name characters written by the fill pass. -/
structure ltree_level where
  len : Nat
  name : MStr
deriving DecidableEq

/-- MaxAllocSize of the host allocator. -/
def MaxAllocSize : Nat := 0x3fffffff

/-- Modelled from the spec: sizeof(nodeitem) on the usual 64-bit layout of the
repository's build (the struct itself lives in this file; only the
allocation-limit threshold depends on the byte size). -/
def sizeofNodeitem : Nat := 24

/-- The fill loop of ltree_in: write each level's length and its unescaped
name via copy_unescaped. -/
def ltreeFill : List nodeitem → Except PErr (List ltree_level)
  | [] => .ok []
  | it :: rest =>
    match (if it.len = 0 then .ok [] else copy_unescaped it.span it.len) with
    | .error e => .error e
    | .ok nm =>
      match ltreeFill rest with
      | .error e => .error e
      | .ok out => .ok (⟨it.len, nm⟩ :: out)

/-- ltree_in: decode label-path text into the levels of the ltree record.
copy_unescaped is passed each name's span; it stops after len bytes, which
lie inside the span (proved below), so this matches the C's copy from
lptr->start within the full buffer. -/
def ltree_in (buf : MStr) : Except PErr (List ltree_level) :=
  if MaxAllocSize / sizeofNodeitem < (count_lquery_parts_ors buf).1 then
    .error (.levelLimit (count_lquery_parts_ors buf).1 (MaxAllocSize / sizeofNodeitem))
  else
    match ltScan buf 0 .waitName ⟨[], 0, 0⟩ [] with
    | .error e => .error e
    | .ok items => ltreeFill items

/-- Modelled from the spec: MAXALIGN pads to the platform's 8-byte maximum
alignment ("alignment-padded" records). -/
def MAXALIGN (n : Nat) : Nat := 8 * ((n + 7) / 8)

/-- Modelled from the spec: byte size of a level header (its uint16 length
field). -/
def LEVEL_HDRSIZE : Nat := 2

/-- Modelled from the spec: MAXALIGNed byte size of the ltree record header
(4-byte varlena length plus 2-byte level count). -/
def LTREE_HDRSIZE : Nat := 8

/-- VARSIZE of the record built by ltree_in: header plus the MAXALIGNed
per-level sizes. This is also the byte count ltree_out allocates for its
output text. -/
def ltreeVarsize (ls : List ltree_level) : Nat :=
  LTREE_HDRSIZE + (ls.map (fun l => MAXALIGN (l.len + LEVEL_HDRSIZE))).sum

/-- ltree_out: write each level re-escaped against {backslash, space, dot},
with dots between levels. The C additionally writes one terminating NUL
byte, so it writes lenB (output) + 1 bytes into its palloc(VARSIZE) buffer. -/
def ltree_out : List ltree_level → Except PErr MStr
  | [] => .ok []
  | l :: rest =>
    match (if 0 < l.len then copy_escaped l.name l.len [92, 32, 46] else .ok ([], 0)) with
    | .error e => .error e
    | .ok (s, _) =>
      match rest with
      | [] => .ok s
      | _ :: _ =>
        match ltree_out rest with
        | .error e => .error e
        | .ok out => .ok (s ++ [46] :: out)

example : ltree_in [] = .ok [] := rfl

example : ltree_in [[97], [46], [98]] = .ok [⟨1, [[97]]⟩, ⟨1, [[98]]⟩] := rfl

example : ltree_in [[97], [92], [46], [98], [46], [99]]
    = .ok [⟨3, [[97], [46], [98]]⟩, ⟨1, [[99]]⟩] := rfl

example : ltree_in [[46]] = .error (.unchar 0) := rfl

example : ltree_in [[97], [46]] = .error .eol := rfl

example : ltree_out [⟨1, [[97]]⟩, ⟨1, [[98]]⟩] = .ok [[97], [46], [98]] := rfl

example : ltree_out [⟨3, [[97], [46], [98]]⟩] = .ok [[97], [92], [46], [98]] := rfl

/-- Invariant of a closed nodeitem recorded by the ltree_in scanner. -/
def ItemOk (it : nodeitem) : Prop :=
  wellEsc it.span = true ∧ it.span ≠ [] ∧ (∀ c ∈ it.span, c ≠ []) ∧
  it.escaped + lenB (unesc it.span) = lenB it.span ∧
  it.wlen = (unesc it.span).length ∧ it.wlen ≤ 255

/-- Invariant of the in-progress nodeitem, per scanner state. -/
def CurOk : LtS → nodeitem → Prop
  | .waitName, _ => True
  | .waitDelim, it => wellEsc it.span = true ∧ it.span ≠ [] ∧ (∀ c ∈ it.span, c ≠ []) ∧
      it.escaped + lenB (unesc it.span) = lenB it.span ∧ it.wlen = (unesc it.span).length
  | .waitEscaped, it => ∃ s₀, it.span = s₀ ++ [[92]] ∧ wellEsc s₀ = true ∧
      (∀ c ∈ s₀, c ≠ []) ∧ it.escaped + lenB (unesc s₀) + 1 = lenB it.span ∧
      it.wlen = (unesc s₀).length

theorem ltScan_ok_inv : ∀ (s : MStr) (pos : Nat) (st : LtS) (cur : nodeitem)
    (acc items : List nodeitem),
    (∀ c ∈ s, c ≠ []) → CurOk st cur → (∀ it ∈ acc, ItemOk it) →
    ltScan s pos st cur acc = .ok items → ∀ it ∈ items, ItemOk it := by
  intro s
  induction s with
  | nil =>
    intro pos st cur acc items hne hcur hacc hscan
    cases st with
    | waitName =>
      simp only [ltScan] at hscan
      split at hscan
      · simp only [Except.ok.injEq] at hscan
        subst hscan
        intro it hit
        simp at hit
      · exact absurd hscan (by simp)
    | waitDelim =>
      simp only [ltScan] at hscan
      split at hscan
      · exact absurd hscan (by simp)
      · rename_i hwl
        simp only [Except.ok.injEq] at hscan
        subst hscan
        intro it hit
        rcases List.mem_append.mp hit with h | h
        · exact hacc it h
        · have : it = cur := by simpa using h
          subst this
          obtain ⟨h1, h2, h3, h4, h5⟩ := hcur
          exact ⟨h1, h2, h3, h4, h5, by omega⟩
    | waitEscaped => exact absurd hscan (by simp [ltScan])
  | cons c rest ih =>
    intro pos st cur acc items hne hcur hacc hscan
    have hcne : c ≠ [] := hne c (by simp)
    have hne' : ∀ d ∈ rest, d ≠ [] := fun d hd => hne d (by simp [hd])
    cases st with
    | waitName =>
      by_cases h46 : isOne c 46 = true
      · simp [ltScan, h46] at hscan
      · by_cases h92 : isOne c 92 = true
        · simp only [ltScan, h46, h92, if_false, if_true, Bool.false_eq_true] at hscan
          have hc : c = [92] := isOne_iff.mp h92
          refine ih (pos+1) .waitEscaped ⟨[c], 0, 0⟩ acc items hne' ?_ hacc hscan
          exact ⟨[], by simp [hc], rfl, by simp, by simp [unesc, hc], by simp [unesc]⟩
        · simp only [ltScan, h46, h92, if_false, Bool.false_eq_true] at hscan
          have hc : c ≠ [92] := fun h => h92 (by simp [h, isOne_iff])
          refine ih (pos+1) .waitDelim ⟨[c], 1, 0⟩ acc items hne' ?_ hacc hscan
          refine ⟨wellEsc_noesc (by simpa using hc), by simp, by simpa using hcne, ?_, ?_⟩
          · simp [unesc_noesc (s := [c]) (by simpa using hc)]
          · simp [unesc_noesc (s := [c]) (by simpa using hc)]
    | waitEscaped =>
      simp only [ltScan] at hscan
      obtain ⟨s₀, hsp, hw0, hne0, heq, hwl⟩ := hcur
      refine ih (pos+1) .waitDelim ⟨cur.span ++ [c], cur.wlen + 1, cur.escaped + 1⟩
        acc items hne' ?_ hacc hscan
      have hsp2 : cur.span ++ [c] = s₀ ++ [[92], c] := by
        rw [hsp, List.append_assoc]; rfl
      refine ⟨?_, by simp, ?_, ?_, ?_⟩
      · rw [hsp2]; exact wellEsc_snoc_esc hw0 c
      · intro d hd
        rw [hsp2] at hd
        rcases List.mem_append.mp hd with h | h
        · exact hne0 d h
        · simp at h
          rcases h with h | h
          · simp [h]
          · simpa [h] using hcne
      · rw [hsp2, unesc_snoc_esc hw0 c]
        rw [hsp] at heq
        simp only [lenB_append, lenB_cons, lenB_nil, List.length_cons,
          List.length_nil] at heq ⊢
        omega
      · rw [hsp2, unesc_snoc_esc hw0 c]
        simp [hwl]
    | waitDelim =>
      obtain ⟨h1, h2, h3, h4, h5⟩ := hcur
      by_cases h46 : isOne c 46 = true
      · simp only [ltScan, h46, if_true] at hscan
        split at hscan
        · exact absurd hscan (by simp)
        · rename_i hwl
          refine ih (pos+1) .waitName ⟨[], 0, 0⟩ (acc ++ [cur]) items hne' trivial ?_ hscan
          intro it hit
          rcases List.mem_append.mp hit with h | h
          · exact hacc it h
          · have : it = cur := by simpa using h
            subst this
            exact ⟨h1, h2, h3, h4, h5, by omega⟩
      · by_cases h92 : isOne c 92 = true
        · simp only [ltScan, h46, h92, if_false, if_true, Bool.false_eq_true] at hscan
          have hc : c = [92] := isOne_iff.mp h92
          refine ih (pos+1) .waitEscaped ⟨cur.span ++ [c], cur.wlen, cur.escaped⟩
            acc items hne' ?_ hacc hscan
          refine ⟨cur.span, by simp [hc], h1, h3, ?_, h5⟩
          simp [hc]
          omega
        · simp only [ltScan, h46, h92, if_false, Bool.false_eq_true] at hscan
          have hc : c ≠ [92] := fun h => h92 (by simp [h, isOne_iff])
          refine ih (pos+1) .waitDelim ⟨cur.span ++ [c], cur.wlen + 1, cur.escaped⟩
            acc items hne' ?_ hacc hscan
          refine ⟨wellEsc_snoc_plain h1 hc, by simp, ?_, ?_, ?_⟩
          · intro d hd
            rcases List.mem_append.mp hd with h | h
            · exact h3 d h
            · simp at h; simpa [h] using hcne
          · rw [unesc_snoc_plain h1 hc]
            simp
            omega
          · rw [unesc_snoc_plain h1 hc]
            simp [h5]

theorem countFst_plain {c : MChar} (rest : MStr) (h92 : ¬ isOne c 92 = true)
    (h46 : ¬ isOne c 46 = true) :
    (countAux (c :: rest) false).1 = (countAux rest false).1 := by
  by_cases h124 : isOne c 124 = true <;> simp [countAux, h92, h46, h124]

theorem ltScan_err : ∀ (s : MStr) (pos : Nat) (st : LtS) (cur : nodeitem)
    (acc : List nodeitem) (e : PErr),
    ltScan s pos st cur acc = .error e → e ≠ .internalErr := by
  intro s
  induction s with
  | nil =>
    intro pos st cur acc e hscan
    cases st with
    | waitName =>
      simp only [ltScan] at hscan
      split at hscan
      · exact absurd hscan (by simp)
      · simp only [Except.error.injEq] at hscan; subst hscan; simp
    | waitDelim =>
      simp only [ltScan] at hscan
      split at hscan
      · simp only [Except.error.injEq] at hscan; subst hscan; simp
      · exact absurd hscan (by simp)
    | waitEscaped =>
      simp only [ltScan, Except.error.injEq] at hscan
      subst hscan; simp
  | cons c rest ih =>
    intro pos st cur acc e hscan
    cases st with
    | waitName =>
      by_cases h46 : isOne c 46 = true
      · simp only [ltScan, h46, if_true, Except.error.injEq] at hscan
        subst hscan; simp
      · by_cases h92 : isOne c 92 = true
        · simp only [ltScan, h46, h92, if_false, if_true, Bool.false_eq_true] at hscan
          exact ih _ _ _ _ _ hscan
        · simp only [ltScan, h46, h92, if_false, Bool.false_eq_true] at hscan
          exact ih _ _ _ _ _ hscan
    | waitEscaped =>
      simp only [ltScan] at hscan
      exact ih _ _ _ _ _ hscan
    | waitDelim =>
      by_cases h46 : isOne c 46 = true
      · simp only [ltScan, h46, if_true] at hscan
        split at hscan
        · simp only [Except.error.injEq] at hscan
          subst hscan; simp
        · exact ih _ _ _ _ _ hscan
      · by_cases h92 : isOne c 92 = true
        · simp only [ltScan, h46, h92, if_false, if_true, Bool.false_eq_true] at hscan
          exact ih _ _ _ _ _ hscan
        · simp only [ltScan, h46, h92, if_false, Bool.false_eq_true] at hscan
          exact ih _ _ _ _ _ hscan

theorem ltScan_unchar : ∀ (s : MStr) (pos : Nat) (st : LtS) (cur : nodeitem)
    (acc : List nodeitem) (p : Nat),
    ltScan s pos st cur acc = .error (.unchar p) →
    ∃ pre c post, s = pre ++ c :: post ∧ pos + pre.length = p ∧ isOne c 46 = true := by
  intro s
  induction s with
  | nil =>
    intro pos st cur acc p hscan
    cases st with
    | waitName =>
      simp only [ltScan] at hscan
      split at hscan
      · exact absurd hscan (by simp)
      · simp at hscan
    | waitDelim =>
      simp only [ltScan] at hscan
      split at hscan
      · simp at hscan
      · exact absurd hscan (by simp)
    | waitEscaped => simp [ltScan] at hscan
  | cons c rest ih =>
    intro pos st cur acc p hscan
    cases st with
    | waitName =>
      by_cases h46 : isOne c 46 = true
      · simp only [ltScan, h46, if_true, Except.error.injEq, PErr.unchar.injEq] at hscan
        exact ⟨[], c, rest, by simp, by simpa using hscan, h46⟩
      · by_cases h92 : isOne c 92 = true
        · simp only [ltScan, h46, h92, if_false, if_true, Bool.false_eq_true] at hscan
          obtain ⟨pre, c', post, hd, hp, h46'⟩ := ih _ _ _ _ _ hscan
          exact ⟨c :: pre, c', post, by simp [hd], by simp at hp ⊢; omega, h46'⟩
        · simp only [ltScan, h46, h92, if_false, Bool.false_eq_true] at hscan
          obtain ⟨pre, c', post, hd, hp, h46'⟩ := ih _ _ _ _ _ hscan
          exact ⟨c :: pre, c', post, by simp [hd], by simp at hp ⊢; omega, h46'⟩
    | waitEscaped =>
      simp only [ltScan] at hscan
      obtain ⟨pre, c', post, hd, hp, h46'⟩ := ih _ _ _ _ _ hscan
      exact ⟨c :: pre, c', post, by simp [hd], by simp at hp ⊢; omega, h46'⟩
    | waitDelim =>
      by_cases h46 : isOne c 46 = true
      · simp only [ltScan, h46, if_true] at hscan
        split at hscan
        · simp at hscan
        · obtain ⟨pre, c', post, hd, hp, h46'⟩ := ih _ _ _ _ _ hscan
          exact ⟨c :: pre, c', post, by simp [hd], by simp at hp ⊢; omega, h46'⟩
      · by_cases h92 : isOne c 92 = true
        · simp only [ltScan, h46, h92, if_false, if_true, Bool.false_eq_true] at hscan
          obtain ⟨pre, c', post, hd, hp, h46'⟩ := ih _ _ _ _ _ hscan
          exact ⟨c :: pre, c', post, by simp [hd], by simp at hp ⊢; omega, h46'⟩
        · simp only [ltScan, h46, h92, if_false, Bool.false_eq_true] at hscan
          obtain ⟨pre, c', post, hd, hp, h46'⟩ := ih _ _ _ _ _ hscan
          exact ⟨c :: pre, c', post, by simp [hd], by simp at hp ⊢; omega, h46'⟩

theorem ltScan_count : ∀ (s : MStr) (pos : Nat) (st : LtS) (cur : nodeitem)
    (acc items : List nodeitem),
    ltScan s pos st cur acc = .ok items →
    items.length ≤ acc.length + (countAux s (st == LtS.waitEscaped)).1 + 1 := by
  intro s
  induction s with
  | nil =>
    intro pos st cur acc items hscan
    cases st with
    | waitName =>
      simp only [ltScan] at hscan
      split at hscan
      · simp only [Except.ok.injEq] at hscan; subst hscan; simp
      · exact absurd hscan (by simp)
    | waitDelim =>
      simp only [ltScan] at hscan
      split at hscan
      · exact absurd hscan (by simp)
      · simp only [Except.ok.injEq] at hscan
        subst hscan
        simp [countAux]
    | waitEscaped => simp [ltScan] at hscan
  | cons c rest ih =>
    intro pos st cur acc items hscan
    have eF : (LtS.waitName == LtS.waitEscaped) = false := by decide
    have eD : (LtS.waitDelim == LtS.waitEscaped) = false := by decide
    have eT : (LtS.waitEscaped == LtS.waitEscaped) = true := by decide
    cases st with
    | waitName =>
      rw [eF]
      by_cases h46 : isOne c 46 = true
      · simp [ltScan, h46] at hscan
      · by_cases h92 : isOne c 92 = true
        · simp only [ltScan, h46, h92, if_false, if_true, Bool.false_eq_true] at hscan
          have h := ih _ _ _ _ _ hscan
          rw [eT] at h
          simp only [countAux, h92, if_true, Bool.false_eq_true, if_false]
          exact h
        · simp only [ltScan, h46, h92, if_false, Bool.false_eq_true] at hscan
          have h := ih _ _ _ _ _ hscan
          rw [eD] at h
          rw [countFst_plain rest h92 h46]
          exact h
    | waitEscaped =>
      rw [eT]
      simp only [ltScan] at hscan
      have h := ih _ _ _ _ _ hscan
      rw [eD] at h
      simpa [countAux] using h
    | waitDelim =>
      rw [eD]
      by_cases h46 : isOne c 46 = true
      · simp only [ltScan, h46, if_true] at hscan
        split at hscan
        · exact absurd hscan (by simp)
        · have h := ih _ _ _ _ _ hscan
          rw [eF] at h
          simp only [List.length_append, List.length_cons, List.length_nil] at h
          have hc : c = [46] := isOne_iff.mp h46
          have hcnt : (countAux (c :: rest) false).1 = (countAux rest false).1 + 1 := by
            subst hc
            simp [countAux, isOne_single]
          rw [hcnt]
          omega
      · by_cases h92 : isOne c 92 = true
        · simp only [ltScan, h46, h92, if_false, if_true, Bool.false_eq_true] at hscan
          have h := ih _ _ _ _ _ hscan
          rw [eT] at h
          simp only [countAux, h92, if_true, Bool.false_eq_true, if_false]
          exact h
        · simp only [ltScan, h46, h92, if_false, Bool.false_eq_true] at hscan
          have h := ih _ _ _ _ _ hscan
          rw [eD] at h
          rw [countFst_plain rest h92 h46]
          exact h

theorem lenB_pos {s : MStr} (hne : ∀ c ∈ s, c ≠ []) (hs : s ≠ []) : 0 < lenB s := by
  cases s with
  | nil => exact absurd rfl hs
  | cons c rest =>
    have : c ≠ [] := hne c (by simp)
    have := List.length_pos.mpr this
    simp only [lenB_cons]
    omega

theorem ltreeFill_ok : ∀ (items : List nodeitem), (∀ it ∈ items, ItemOk it) →
    ltreeFill items = .ok (items.map fun it => ⟨it.len, unesc it.span⟩) := by
  intro items
  induction items with
  | nil => intro _; rfl
  | cons it rest ih =>
    intro h
    obtain ⟨hw, hspne, hne, heq, hwl, h255⟩ := h it (by simp)
    have hnename : ∀ c ∈ unesc it.span, c ≠ [] := fun c hc => hne c (unesc_subset hc)
    have hlen : it.len = lenB (unesc it.span) := by
      simp only [nodeitem.len]; omega
    have hpos : 0 < it.len := by
      rw [hlen]; exact lenB_pos hnename (unesc_ne_nil hw hspne)
    have hcopy : copy_unescaped it.span it.len = .ok (unesc it.span) := by
      have := copy_unescaped_spec (s := it.span) [] (unesc it.span) [] hw hne (by simp)
      rw [List.append_nil] at this
      rw [hlen]
      exact this
    simp only [ltreeFill, if_neg (by omega : ¬ it.len = 0), hcopy,
      ih (fun x hx => h x (by simp [hx])), List.map_cons]

/-! ### The escaped form written by the encoders -/

/-- The character sequence copy_escaped writes for a source: a backslash
before every single-byte character whose byte is in toE. -/
def escTo (toE : List Nat) : MStr → MStr
  | [] => []
  | c :: rest =>
    (if c.length == 1 && toE.contains (c.headD 0) then [[92], c] else [c]) ++ escTo toE rest

/-- The number of escapes copy_escaped inserts. -/
def nEscTo (toE : List Nat) : MStr → Nat
  | [] => 0
  | c :: rest =>
    (if c.length == 1 && toE.contains (c.headD 0) then 1 else 0) + nEscTo toE rest

theorem copyEscAux_full : ∀ (s : MStr) (copied : Nat) (toE : List Nat),
    (∀ c ∈ s, c ≠ []) →
    copyEscAux s (copied + lenB s) copied toE = .ok (escTo toE s, nEscTo toE s) := by
  intro s
  induction s with
  | nil => intro copied toE _; rfl
  | cons c rest ih =>
    intro copied toE hne
    have hcne : c ≠ [] := hne c (by simp)
    have hclen : 0 < c.length := List.length_pos.mpr hcne
    have h1 : ¬ (copied + lenB (c :: rest) ≤ copied) := by
      simp only [lenB_cons]; omega
    have h2 : ¬ (copied + lenB (c :: rest) < copied + c.length) := by
      simp only [lenB_cons]; omega
    rw [copyEscAux, if_neg h1, if_neg h2]
    have harg : copied + lenB (c :: rest) = copied + c.length + lenB rest := by
      simp only [lenB_cons]; omega
    rw [harg, ih (copied + c.length) toE (fun d hd => hne d (by simp [hd]))]
    cases hB : (c.length == 1 && toE.contains (c.headD 0))
    · rw [escTo, nEscTo, hB]
      simp
    · rw [escTo, nEscTo, hB]
      simp
      omega

theorem copy_escaped_full {s : MStr} (toE : List Nat) (hne : ∀ c ∈ s, c ≠ []) :
    copy_escaped s (lenB s) toE = .ok (escTo toE s, nEscTo toE s) := by
  have := copyEscAux_full s 0 toE hne
  simpa [copy_escaped] using this

/-- The ltree_out escape set {backslash, space, dot}. -/
def escL (s : MStr) : MStr := escTo [92, 32, 46] s

/-- Levels joined by unescaped dots, as the encoders emit them. -/
def joinDot : List MStr → MStr
  | [] => []
  | [x] => x
  | x :: rest => x ++ [46] :: joinDot rest

theorem ltree_out_ok : ∀ (ls : List ltree_level),
    (∀ l ∈ ls, l.len = lenB l.name ∧ (∀ c ∈ l.name, c ≠ []) ∧ l.name ≠ []) →
    ltree_out ls = .ok (joinDot (ls.map fun l => escL l.name)) := by
  intro ls
  induction ls with
  | nil => intro _; rfl
  | cons l rest ih =>
    intro h
    obtain ⟨hlen, hne, hnn⟩ := h l (by simp)
    have hpos : 0 < l.len := by rw [hlen]; exact lenB_pos hne hnn
    have hcopy : copy_escaped l.name l.len [92, 32, 46]
        = .ok (escL l.name, nEscTo [92, 32, 46] l.name) := by
      rw [hlen]; exact copy_escaped_full _ hne
    cases rest with
    | nil => simp [ltree_out, hpos, hcopy, joinDot]
    | cons l2 rest2 =>
      rw [ltree_out, if_pos hpos, hcopy]
      rw [ih (fun x hx => h x (by simp [hx]))]
      simp [joinDot]

theorem escL_plain_facts {c : MChar}
    (he : (c.length == 1 && ([92, 32, 46] : List Nat).contains (c.headD 0)) = false) :
    c ≠ [92] ∧ isOne c 92 = false ∧ isOne c 46 = false := by
  refine ⟨?_, ?_, ?_⟩
  · intro h; subst h; exact absurd he (by decide)
  · cases h : isOne c 92
    · rfl
    · have hc := isOne_iff.mp h; subst hc; exact absurd he (by decide)
  · cases h : isOne c 46
    · rfl
    · have hc := isOne_iff.mp h; subst hc; exact absurd he (by decide)

theorem escL_cons_esc {c : MChar} (lab : MStr)
    (he : (c.length == 1 && ([92, 32, 46] : List Nat).contains (c.headD 0)) = true) :
    escL (c :: lab) = [92] :: c :: escL lab := by
  show escTo [92, 32, 46] (c :: lab) = [92] :: c :: escTo [92, 32, 46] lab
  rw [escTo, he]
  simp

theorem escL_cons_plain {c : MChar} (lab : MStr)
    (he : (c.length == 1 && ([92, 32, 46] : List Nat).contains (c.headD 0)) = false) :
    escL (c :: lab) = c :: escL lab := by
  show escTo [92, 32, 46] (c :: lab) = c :: escTo [92, 32, 46] lab
  rw [escTo, he]
  simp

theorem nEscTo_cons_esc {c : MChar} (lab : MStr)
    (he : (c.length == 1 && ([92, 32, 46] : List Nat).contains (c.headD 0)) = true) :
    nEscTo [92, 32, 46] (c :: lab) = 1 + nEscTo [92, 32, 46] lab := by
  rw [nEscTo, he]
  simp

theorem nEscTo_cons_plain {c : MChar} (lab : MStr)
    (he : (c.length == 1 && ([92, 32, 46] : List Nat).contains (c.headD 0)) = false) :
    nEscTo [92, 32, 46] (c :: lab) = nEscTo [92, 32, 46] lab := by
  rw [nEscTo, he]
  simp

theorem escL_wellEsc : ∀ (lab : MStr), wellEsc (escL lab) = true := by
  intro lab
  induction lab with
  | nil => rfl
  | cons c lab' ih =>
    cases hB : (c.length == 1 && ([92, 32, 46] : List Nat).contains (c.headD 0))
    · rw [escL_cons_plain lab' hB, wellEsc.eq_def]
      simp [(escL_plain_facts hB).1]
      exact ih
    · rw [escL_cons_esc lab' hB]
      simpa [wellEsc] using ih

theorem escL_unesc : ∀ (lab : MStr), unesc (escL lab) = lab := by
  intro lab
  induction lab with
  | nil => rfl
  | cons c lab' ih =>
    cases hB : (c.length == 1 && ([92, 32, 46] : List Nat).contains (c.headD 0))
    · rw [escL_cons_plain lab' hB, unesc.eq_def]
      simp [(escL_plain_facts hB).1]
      exact ih
    · rw [escL_cons_esc lab' hB]
      simpa [unesc] using ih

theorem escL_lenB : ∀ (lab : MStr),
    lenB (escL lab) = lenB lab + nEscTo [92, 32, 46] lab := by
  intro lab
  induction lab with
  | nil => rfl
  | cons c lab' ih =>
    cases hB : (c.length == 1 && ([92, 32, 46] : List Nat).contains (c.headD 0))
    · rw [escL_cons_plain lab' hB, nEscTo_cons_plain lab' hB]
      simp [ih]
      omega
    · rw [escL_cons_esc lab' hB, nEscTo_cons_esc lab' hB]
      simp [ih]
      omega

theorem escL_ne_nil {lab : MStr} (h : lab ≠ []) : escL lab ≠ [] := by
  cases lab with
  | nil => exact absurd rfl h
  | cons c lab' =>
    cases hB : (c.length == 1 && ([92, 32, 46] : List Nat).contains (c.headD 0))
    · rw [escL_cons_plain lab' hB]; simp
    · rw [escL_cons_esc lab' hB]; simp

theorem escL_mem_ne {lab : MStr} (hne : ∀ c ∈ lab, c ≠ []) :
    ∀ c ∈ escL lab, c ≠ [] := by
  induction lab with
  | nil => intro c hc; simp [escL, escTo] at hc
  | cons d lab' ih =>
    intro c hc
    cases hB : (d.length == 1 && ([92, 32, 46] : List Nat).contains (d.headD 0))
    · rw [escL_cons_plain lab' hB] at hc
      rcases List.mem_cons.mp hc with h | h
      · subst h; exact hne c (by simp)
      · exact ih (fun x hx => hne x (by simp [hx])) c h
    · rw [escL_cons_esc lab' hB] at hc
      rcases List.mem_cons.mp hc with h | h
      · subst h; simp
      · rcases List.mem_cons.mp h with h' | h'
        · subst h'; exact hne c (by simp)
        · exact ih (fun x hx => hne x (by simp [hx])) c h'

theorem ltScan_escL_delim : ∀ (lab rest : MStr) (pos : Nat) (cur : nodeitem)
    (acc : List nodeitem),
    ltScan (escL lab ++ rest) pos .waitDelim cur acc
    = ltScan rest (pos + (escL lab).length) .waitDelim
        ⟨cur.span ++ escL lab, cur.wlen + lab.length, cur.escaped + nEscTo [92, 32, 46] lab⟩
        acc := by
  intro lab
  induction lab with
  | nil =>
    intro rest pos cur acc
    simp [escL, escTo, nEscTo]
  | cons c lab' ih =>
    intro rest pos cur acc
    cases hB : (c.length == 1 && ([92, 32, 46] : List Nat).contains (c.headD 0))
    · obtain ⟨hc92, h92, h46⟩ := escL_plain_facts hB
      rw [escL_cons_plain lab' hB]
      rw [List.cons_append]
      simp only [ltScan, h46, h92, Bool.false_eq_true, if_false]
      rw [ih rest (pos + 1) ⟨cur.span ++ [c], cur.wlen + 1, cur.escaped⟩ acc]
      have e1 : pos + (c :: escL lab').length = pos + 1 + (escL lab').length := by
        simp [List.length_cons]; omega
      have e2 : cur.span ++ c :: escL lab' = (cur.span ++ [c]) ++ escL lab' := by simp
      have e3 : cur.wlen + (c :: lab').length = cur.wlen + 1 + lab'.length := by
        simp [List.length_cons]; omega
      rw [e1, e2, e3, nEscTo_cons_plain lab' hB]
    · rw [escL_cons_esc lab' hB]
      rw [List.cons_append, List.cons_append]
      simp only [ltScan, (show isOne [92] 46 = false by decide),
        (show isOne [92] 92 = true by decide), if_true, Bool.false_eq_true, if_false]
      rw [ih rest (pos + 1 + 1) ⟨(cur.span ++ [[92]]) ++ [c], cur.wlen + 1, cur.escaped + 1⟩ acc]
      have e1 : pos + ([92] :: c :: escL lab').length = pos + 1 + 1 + (escL lab').length := by
        simp [List.length_cons]; omega
      have e2 : cur.span ++ [92] :: c :: escL lab' = ((cur.span ++ [[92]]) ++ [c]) ++ escL lab' := by
        simp
      have e3 : cur.wlen + (c :: lab').length = cur.wlen + 1 + lab'.length := by
        simp [List.length_cons]; omega
      have e4 : cur.escaped + nEscTo [92, 32, 46] (c :: lab')
          = cur.escaped + 1 + nEscTo [92, 32, 46] lab' := by
        rw [nEscTo_cons_esc lab' hB]; omega
      rw [e1, e2, e3, e4]

theorem ltScan_escL_name (lab : MStr) (hlab : lab ≠ []) :
    ∀ (rest : MStr) (pos : Nat) (acc : List nodeitem),
    ltScan (escL lab ++ rest) pos .waitName ⟨[], 0, 0⟩ acc
    = ltScan rest (pos + (escL lab).length) .waitDelim
        ⟨escL lab, lab.length, nEscTo [92, 32, 46] lab⟩ acc := by
  cases lab with
  | nil => exact absurd rfl hlab
  | cons c lab' =>
    intro rest pos acc
    cases hB : (c.length == 1 && ([92, 32, 46] : List Nat).contains (c.headD 0))
    · obtain ⟨hc92, h92, h46⟩ := escL_plain_facts hB
      rw [escL_cons_plain lab' hB, List.cons_append]
      simp only [ltScan, h46, h92, Bool.false_eq_true, if_false]
      rw [ltScan_escL_delim lab' rest (pos + 1) ⟨[c], 1, 0⟩ acc]
      have e1 : pos + (c :: escL lab').length = pos + 1 + (escL lab').length := by
        simp [List.length_cons]; omega
      have e2 : (c :: escL lab' : MStr) = [c] ++ escL lab' := by simp
      have e3 : (c :: lab').length = 1 + lab'.length := by simp [List.length_cons]; omega
      have e4 : nEscTo [92, 32, 46] (c :: lab') = 0 + nEscTo [92, 32, 46] lab' := by
        rw [nEscTo_cons_plain lab' hB]; omega
      rw [e1, e2, e3, e4]
    · rw [escL_cons_esc lab' hB, List.cons_append, List.cons_append]
      simp only [ltScan, (show isOne [92] 46 = false by decide),
        (show isOne [92] 92 = true by decide), if_true, Bool.false_eq_true, if_false]
      rw [ltScan_escL_delim lab' rest (pos + 1 + 1) ⟨[[92]] ++ [c], 0 + 1, 0 + 1⟩ acc]
      have e1 : pos + ([92] :: c :: escL lab').length = pos + 1 + 1 + (escL lab').length := by
        simp [List.length_cons]; omega
      have e2 : ([92] :: c :: escL lab' : MStr) = ([[92]] ++ [c]) ++ escL lab' := by simp
      have e3 : (c :: lab').length = 0 + 1 + lab'.length := by simp [List.length_cons]; omega
      have e4 : nEscTo [92, 32, 46] (c :: lab') = 0 + 1 + nEscTo [92, 32, 46] lab' := by
        rw [nEscTo_cons_esc lab' hB]
      rw [e1, e2, e3, e4]

theorem ltScan_joined : ∀ (labs : List MStr) (pos : Nat) (acc : List nodeitem),
    labs ≠ [] → (∀ lab ∈ labs, lab ≠ [] ∧ lab.length ≤ 255) →
    ltScan (joinDot (labs.map escL)) pos .waitName ⟨[], 0, 0⟩ acc
    = .ok (acc ++ labs.map (fun lab => ⟨escL lab, lab.length, nEscTo [92, 32, 46] lab⟩)) := by
  intro labs
  induction labs with
  | nil => intro pos acc h _; exact absurd rfl h
  | cons lab rest ih =>
    intro pos acc _ hfacts
    obtain ⟨hnn, h255⟩ := hfacts lab (by simp)
    cases rest with
    | nil =>
      simp only [List.map_cons, List.map_nil, joinDot]
      have hstep := ltScan_escL_name lab hnn [] pos acc
      rw [List.append_nil] at hstep
      rw [hstep]
      simp only [ltScan]
      rw [if_neg (by omega : ¬ (255 < lab.length))]
    | cons lab2 rest2 =>
      simp only [List.map_cons, joinDot]
      rw [ltScan_escL_name lab hnn ([46] :: joinDot (escL lab2 :: rest2.map escL)) pos acc]
      simp only [ltScan, (show isOne [46] 46 = true by decide), if_true]
      rw [if_neg (by omega : ¬ (255 < lab.length))]
      have := ih (pos + (escL lab).length + 1)
        (acc ++ [⟨escL lab, lab.length, nEscTo [92, 32, 46] lab⟩]) (by simp)
        (fun l hl => hfacts l (by simp [hl]))
      simp only [List.map_cons] at this
      rw [this]
      simp

theorem countFst_escL : ∀ (lab rest : MStr),
    (countAux (escL lab ++ rest) false).1 = (countAux rest false).1 := by
  intro lab
  induction lab with
  | nil => intro rest; simp [escL, escTo]
  | cons c lab' ih =>
    intro rest
    cases hB : (c.length == 1 && ([92, 32, 46] : List Nat).contains (c.headD 0))
    · obtain ⟨hc92, h92, h46⟩ := escL_plain_facts hB
      rw [escL_cons_plain lab' hB, List.cons_append,
        countFst_plain _ (by simp [h92]) (by simp [h46])]
      exact ih rest
    · rw [escL_cons_esc lab' hB, List.cons_append, List.cons_append]
      rw [show countAux ([92] :: c :: (escL lab' ++ rest)) false
          = countAux (c :: (escL lab' ++ rest)) true by
        simp [countAux, (show isOne [92] 92 = true by decide)]]
      rw [show countAux (c :: (escL lab' ++ rest)) true
          = countAux (escL lab' ++ rest) false by simp [countAux]]
      exact ih rest

theorem countFst_joined : ∀ (labs : List MStr), labs ≠ [] →
    (countAux (joinDot (labs.map escL)) false).1 = labs.length - 1 := by
  intro labs
  induction labs with
  | nil => intro h; exact absurd rfl h
  | cons lab rest ih =>
    intro _
    cases rest with
    | nil =>
      simp only [List.map_cons, List.map_nil, joinDot]
      have := countFst_escL lab []
      rw [List.append_nil] at this
      simp [this, countAux]
    | cons lab2 rest2 =>
      simp only [List.map_cons, joinDot]
      rw [countFst_escL lab ([46] :: joinDot (escL lab2 :: rest2.map escL))]
      rw [show countAux ([46] :: joinDot (escL lab2 :: rest2.map escL)) false
          = ((countAux (joinDot (escL lab2 :: rest2.map escL)) false).1 + 1,
             (countAux (joinDot (escL lab2 :: rest2.map escL)) false).2) by
        simp [countAux, (show isOne [46] 92 = false by decide),
          (show isOne [46] 46 = true by decide)]]
      have := ih (by simp)
      simp only [List.map_cons] at this
      simp [this]

theorem ltree_in_ok_inv {buf : MStr} {ls : List ltree_level}
    (hne : ∀ c ∈ buf, c ≠ []) (h : ltree_in buf = .ok ls) :
    ∃ items : List nodeitem,
      ltScan buf 0 .waitName ⟨[], 0, 0⟩ [] = .ok items ∧
      (∀ it ∈ items, ItemOk it) ∧
      ls = items.map (fun it => ⟨it.len, unesc it.span⟩) ∧
      items.length ≤ (count_lquery_parts_ors buf).1 ∧
      ¬ (MaxAllocSize / sizeofNodeitem < (count_lquery_parts_ors buf).1) := by
  rw [ltree_in] at h
  split at h
  · exact absurd h (by simp)
  · rename_i hlim
    cases hscan : ltScan buf 0 .waitName ⟨[], 0, 0⟩ [] with
    | error e => rw [hscan] at h; exact absurd h (by simp)
    | ok items =>
      rw [hscan] at h
      have h2 : ltreeFill items = .ok ls := h
      have hinv := ltScan_ok_inv buf 0 .waitName ⟨[], 0, 0⟩ [] items hne trivial
        (by simp) hscan
      have hfill := ltreeFill_ok items hinv
      rw [hfill] at h2
      have hls : ls = items.map (fun it => ⟨it.len, unesc it.span⟩) := by
        simpa using h2.symm
      have hcount := ltScan_count buf 0 .waitName ⟨[], 0, 0⟩ [] items hscan
      rw [(show (LtS.waitName == LtS.waitEscaped) = false by decide)] at hcount
      simp only [List.length_nil, Nat.zero_add] at hcount
      exact ⟨items, rfl, hinv, hls, hcount, hlim⟩

theorem ltree_in_level_facts {buf : MStr} {ls : List ltree_level}
    (hne : ∀ c ∈ buf, c ≠ []) (h : ltree_in buf = .ok ls) :
    ∀ l ∈ ls, l.len = lenB l.name ∧ l.name ≠ [] ∧ (∀ c ∈ l.name, c ≠ []) ∧
      l.name.length ≤ 255 := by
  obtain ⟨items, _, hinv, hls, _, _⟩ := ltree_in_ok_inv hne h
  subst hls
  intro l hl
  obtain ⟨it, hit, rfl⟩ := List.mem_map.mp hl
  obtain ⟨hw, hspne, hne', heq, hwl, h255⟩ := hinv it hit
  refine ⟨?_, unesc_ne_nil hw hspne, fun c hc => hne' c (unesc_subset hc), ?_⟩
  · simp only [nodeitem.len]; omega
  · simpa [← hwl] using h255

/-- C3: for every text accepted by ltree_in, encoding the result with
ltree_out and decoding that text again succeeds and returns the identical
record. -/
theorem C3_ltree_roundtrip (buf : MStr) (ls : List ltree_level)
    (hne : ∀ c ∈ buf, c ≠ []) (h : ltree_in buf = .ok ls) :
    ∃ out, ltree_out ls = .ok out ∧ ltree_in out = .ok ls := by
  obtain ⟨items, hscan, hinv, hls, hcnt, hlim⟩ := ltree_in_ok_inv hne h
  have hfacts := ltree_in_level_facts hne h
  have hout : ltree_out ls = .ok (joinDot (ls.map fun l => escL l.name)) :=
    ltree_out_ok ls (fun l hl =>
      ⟨(hfacts l hl).1, (hfacts l hl).2.2.1, (hfacts l hl).2.1⟩)
  refine ⟨_, hout, ?_⟩
  by_cases hnil : items = []
  · subst hnil
    simp only [List.map_nil] at hls
    subst hls
    rfl
  · have hesc : ls.map (fun l => escL l.name)
        = (items.map (fun it => unesc it.span)).map escL := by
      rw [hls]; simp [List.map_map]
    rw [hesc]
    have hlabs_ne : (items.map (fun it => unesc it.span)) ≠ [] := by
      simpa using hnil
    have hlabfacts : ∀ lab ∈ items.map (fun it => unesc it.span),
        lab ≠ [] ∧ lab.length ≤ 255 := by
      intro lab hlab
      obtain ⟨it, hit, hlabeq⟩ := List.mem_map.mp hlab
      obtain ⟨hw, hspne, hne', heq, hwl, h255⟩ := hinv it hit
      subst hlabeq
      exact ⟨unesc_ne_nil hw hspne, by rw [← hwl]; exact h255⟩
    have hlen_eq : (items.map (fun it => unesc it.span)).length = items.length := by
      simp
    have hcnt2 : (count_lquery_parts_ors
        (joinDot ((items.map (fun it => unesc it.span)).map escL))).1
        = items.length := by
      show (countAux (joinDot ((items.map (fun it => unesc it.span)).map escL)) false).1 + 1
          = items.length
      rw [countFst_joined _ hlabs_ne, hlen_eq]
      have : items.length ≠ 0 := fun h0 => hnil (List.length_eq_zero.mp h0)
      omega
    rw [ltree_in]
    rw [if_neg (by rw [hcnt2]; omega)]
    rw [ltScan_joined _ 0 [] hlabs_ne hlabfacts]
    show ltreeFill ((items.map (fun it => unesc it.span)).map
        (fun lab => ⟨escL lab, lab.length, nEscTo [92, 32, 46] lab⟩)) = .ok ls
    have hitems' : ∀ it' ∈ (items.map (fun it => unesc it.span)).map
        (fun lab => (⟨escL lab, lab.length, nEscTo [92, 32, 46] lab⟩ : nodeitem)),
        ItemOk it' := by
      intro it' hit'
      obtain ⟨lab, hlab, hiteq⟩ := List.mem_map.mp hit'
      obtain ⟨hlne, h255⟩ := hlabfacts lab hlab
      have hlabne : ∀ c ∈ lab, c ≠ [] := by
        intro c hc
        obtain ⟨it, hit, hlabeq⟩ := List.mem_map.mp hlab
        subst hlabeq
        exact (hinv it hit).2.2.1 c (unesc_subset hc)
      subst hiteq
      refine ⟨escL_wellEsc lab, escL_ne_nil hlne, escL_mem_ne hlabne, ?_, ?_, h255⟩
      · show nEscTo [92, 32, 46] lab + lenB (unesc (escL lab)) = lenB (escL lab)
        rw [escL_unesc, escL_lenB]
        omega
      · show lab.length = (unesc (escL lab)).length
        rw [escL_unesc]
    rw [ltreeFill_ok _ hitems']
    refine congrArg Except.ok ?_
    rw [hls]
    simp only [List.map_map]
    apply List.map_congr_left
    intro it hit
    obtain ⟨hw, hspne, hne', heq, hwl, h255⟩ := hinv it hit
    simp only [Function.comp]
    have hlen : nodeitem.len ⟨escL (unesc it.span), (unesc it.span).length,
        nEscTo [92, 32, 46] (unesc it.span)⟩ = it.len := by
      show lenB (escL (unesc it.span)) - nEscTo [92, 32, 46] (unesc it.span) = it.len
      rw [escL_lenB]
      simp only [nodeitem.len]
      omega
    rw [ltree_level.mk.injEq]
    exact ⟨hlen, by rw [escL_unesc]⟩

/-- The one-level path of twenty spaces, written as twenty escaped spaces. -/
def esc20 : MStr := (List.replicate 20 ([[92], [32]] : MStr)).flatten

/-- The ltree record ltree_in produces for esc20. -/
def lv20 : List ltree_level := [⟨20, List.replicate 20 [32]⟩]

/-- C1: the claim fails on the code. ltree_out allocates VARSIZE(in) bytes;
for the reachable one-level record of twenty spaces that allocation is 32
bytes while the escaped text plus its terminating NUL is 41 bytes, so the
encoder writes past its buffer in the worst case the claim says is covered. -/
theorem C1_out_alloc_insufficient :
    ltree_in esc20 = .ok lv20 ∧ ltree_out lv20 = .ok esc20 ∧
    lenB esc20 + 1 = 41 ∧ ltreeVarsize lv20 = 32 ∧
    ¬ (lenB esc20 + 1 ≤ ltreeVarsize lv20) :=
  ⟨rfl, rfl, rfl, rfl, by decide⟩

/-- C10: decoding the empty string succeeds and returns the zero-level
path, not an error. -/
theorem C10_empty_ok : ltree_in [] = .ok [] := rfl

/-! ### lquery_in -/

/-- Modelled from the spec: the variant modifier flag bits and the level
negation bit of the repository's header (three independent modifier booleans
plus negation, stored as a bitmask). -/
def LVAR_ANYEND : Nat := 1

/-- Modelled from the spec: the case-insensitive modifier bit. -/
def LVAR_INCASE : Nat := 2

/-- Modelled from the spec: the sublexeme modifier bit. -/
def LVAR_SUBLEXEME : Nat := 4

/-- Modelled from the spec: the level negation bit. -/
def LQL_NOT : Nat := 16

/-- Modelled from the spec: the query-wide has-negation flag bit. -/
def LQUERY_HASNOT : Nat := 1

/-- Scratch data per variant recorded by the lquery_in scan (its nodeitem):
the raw span from lptr->start, the flag bits, wlen and escaped_count. -/
structure qvar where
  span : MStr
  flag : Nat
  wlen : Nat
  escaped : Nat
deriving DecidableEq

/-- The per-variant length corrections applied at close time: one byte per
modifier flag set. -/
def flagOnes (f : Nat) : Nat :=
  (if f &&& LVAR_SUBLEXEME ≠ 0 then 1 else 0) +
  (if f &&& LVAR_INCASE ≠ 0 then 1 else 0) +
  (if f &&& LVAR_ANYEND ≠ 0 then 1 else 0)

/-- lptr->len for a variant: span bytes minus escapes minus one byte per
flag set. -/
def qvar.len (v : qvar) : Nat := lenB v.span - v.escaped - flagOnes v.flag

/-- One scratch query level: its variants (empty for a quantifier level),
its flag word, and its quantifier bounds. -/
structure qlevelS where
  vars : List qvar
  flag : Nat
  low : Nat
  high : Nat
deriving DecidableEq

/-- The LQPRS_* states of the lquery_in scanner. -/
inductive LqS where
  | waitLevel | waitDelim | waitOpen | waitFnum | waitSnum | waitNd | waitClose
  | waitEnd | waitVar | waitEscaped
deriving DecidableEq

/-- The mutable scan state: the current level's flag and bounds, its closed
variants, the variant being scanned, and the closed levels. -/
structure LqSt where
  lvFlag : Nat
  low : Nat
  high : Nat
  closed : List qvar
  cur : qvar
  acc : List qlevelS
deriving DecidableEq

/-- The character loop of lquery_in. Each unescaped dot (and each pipe seen
in WAITEND) closes the current level; the final level is closed by the
end-of-input handling exactly as in the C. -/
def lqScan : MStr → Nat → LqS → LqSt → Except PErr (List qlevelS)
  | [], pos, st, S =>
    match st with
    | .waitDelim =>
      if S.cur.span.isEmpty then .error .eol
      else if S.cur.len = 0 then .error .eol
      else if 255 < S.cur.wlen then .error (.nameTooLong S.cur.wlen pos)
      else .ok (S.acc ++ [⟨S.closed ++ [S.cur], S.lvFlag, S.low, S.high⟩])
    | .waitOpen => .ok (S.acc ++ [⟨[], S.lvFlag, S.low, 65535⟩])
    | .waitEnd => .ok (S.acc ++ [⟨[], S.lvFlag, S.low, S.high⟩])
    | _ => .error .eol
  | c :: rest, pos, st, S =>
    match st with
    | .waitLevel =>
      if c.length == 1 then
        if t_iseq c 33 then
          lqScan rest (pos + 1) .waitDelim
            ⟨LQL_NOT, 0, 0, [], ⟨[], 0, 1, 0⟩, S.acc⟩
        else if t_iseq c 42 then
          lqScan rest (pos + 1) .waitOpen ⟨0, 0, 0, [], ⟨[], 0, 0, 0⟩, S.acc⟩
        else if t_iseq c 92 then
          lqScan rest (pos + 1) .waitEscaped ⟨0, 0, 0, [], ⟨[c], 0, 0, 0⟩, S.acc⟩
        else if t_iseq c 46 || t_iseq c 124 then .error (.unchar pos)
        else
          lqScan rest (pos + 1) .waitDelim ⟨0, 0, 0, [], ⟨[c], 0, 1, 0⟩, S.acc⟩
      else
        lqScan rest (pos + 1) .waitDelim ⟨0, 0, 0, [], ⟨[c], 0, 1, 0⟩, S.acc⟩
    | .waitVar =>
      if t_iseq c 46 || t_iseq c 124 then .error (.unchar pos)
      else if t_iseq c 92 then
        lqScan rest (pos + 1) .waitEscaped { S with cur := ⟨[c], 0, 0, 0⟩ }
      else
        lqScan rest (pos + 1) .waitDelim { S with cur := ⟨[c], 0, 1, 0⟩ }
    | .waitDelim =>
      if isOne c 64 then
        if S.cur.span.isEmpty then .error (.unchar pos)
        else
          lqScan rest (pos + 1) .waitDelim
            { S with lvFlag := S.lvFlag ||| LVAR_INCASE,
                     cur := ⟨S.cur.span ++ [c], S.cur.flag ||| LVAR_INCASE,
                             S.cur.wlen + 1, S.cur.escaped⟩ }
      else if isOne c 42 then
        if S.cur.span.isEmpty then .error (.unchar pos)
        else
          lqScan rest (pos + 1) .waitDelim
            { S with lvFlag := S.lvFlag ||| LVAR_ANYEND,
                     cur := ⟨S.cur.span ++ [c], S.cur.flag ||| LVAR_ANYEND,
                             S.cur.wlen + 1, S.cur.escaped⟩ }
      else if isOne c 37 then
        if S.cur.span.isEmpty then .error (.unchar pos)
        else
          lqScan rest (pos + 1) .waitDelim
            { S with lvFlag := S.lvFlag ||| LVAR_SUBLEXEME,
                     cur := ⟨S.cur.span ++ [c], S.cur.flag ||| LVAR_SUBLEXEME,
                             S.cur.wlen + 1, S.cur.escaped⟩ }
      else if isOne c 124 then
        if 255 < S.cur.wlen then .error (.nameTooLong S.cur.wlen pos)
        else
          lqScan rest (pos + 1) .waitVar
            { S with closed := S.closed ++ [S.cur], cur := ⟨[], 0, 0, 0⟩ }
      else if isOne c 46 then
        if 255 < S.cur.wlen then .error (.nameTooLong S.cur.wlen pos)
        else
          lqScan rest (pos + 1) .waitLevel
            ⟨0, 0, 0, [], ⟨[], 0, 0, 0⟩,
             S.acc ++ [⟨S.closed ++ [S.cur], S.lvFlag, S.low, S.high⟩]⟩
      else if isOne c 92 then
        if S.cur.flag ≠ 0 then .error (.unchar pos)
        else
          lqScan rest (pos + 1) .waitEscaped
            { S with cur := ⟨S.cur.span ++ [c], S.cur.flag, S.cur.wlen, S.cur.escaped⟩ }
      else
        if S.cur.flag ≠ 0 then .error (.unchar pos)
        else
          lqScan rest (pos + 1) .waitDelim
            { S with cur := ⟨S.cur.span ++ [c], S.cur.flag, S.cur.wlen + 1,
                             S.cur.escaped⟩ }
    | .waitOpen =>
      if isOne c 123 then lqScan rest (pos + 1) .waitFnum S
      else if isOne c 46 then
        lqScan rest (pos + 1) .waitLevel
          ⟨0, 0, 0, [], ⟨[], 0, 0, 0⟩, S.acc ++ [⟨[], S.lvFlag, 0, 65535⟩]⟩
      else .error (.unchar pos)
    | .waitFnum =>
      if isOne c 44 then lqScan rest (pos + 1) .waitSnum S
      else if t_isdigit c then
        lqScan rest (pos + 1) .waitNd { S with low := atoi (c :: rest) % 65536 }
      else .error (.unchar pos)
    | .waitSnum =>
      if t_isdigit c then
        lqScan rest (pos + 1) .waitClose { S with high := atoi (c :: rest) % 65536 }
      else if isOne c 125 then
        lqScan rest (pos + 1) .waitEnd { S with high := 65535 }
      else .error (.unchar pos)
    | .waitClose =>
      if isOne c 125 then lqScan rest (pos + 1) .waitEnd S
      else if !t_isdigit c then .error (.unchar pos)
      else lqScan rest (pos + 1) .waitClose S
    | .waitNd =>
      if isOne c 125 then lqScan rest (pos + 1) .waitEnd { S with high := S.low }
      else if isOne c 44 then lqScan rest (pos + 1) .waitSnum S
      else if !t_isdigit c then .error (.unchar pos)
      else lqScan rest (pos + 1) .waitNd S
    | .waitEnd =>
      if c.length == 1 && (t_iseq c 46 || t_iseq c 124) then
        lqScan rest (pos + 1) .waitLevel
          ⟨0, 0, 0, [], ⟨[], 0, 0, 0⟩, S.acc ++ [⟨[], S.lvFlag, S.low, S.high⟩]⟩
      else .error (.unchar pos)
    | .waitEscaped =>
      lqScan rest (pos + 1) .waitDelim
        { S with cur := ⟨S.cur.span ++ [c], S.cur.flag, S.cur.wlen + 1,
                         S.cur.escaped + 1⟩ }

/-- One stored variant of the lquery record (the hash over the name bytes is
computed by an external primitive and carries no information beyond name and
len, so it is not modelled). -/
structure lquery_variant where
  len : Nat
  flag : Nat
  name : MStr
deriving DecidableEq

/-- One stored level of the lquery record. -/
structure lquery_level where
  vars : List lquery_variant
  flag : Nat
  low : Nat
  high : Nat
deriving DecidableEq

/-- The lquery record: levels, firstgood and the query-wide flag. -/
structure lquery where
  levels : List lquery_level
  firstgood : Nat
  flag : Nat
deriving DecidableEq

/-- Modelled from the spec: the scratch slot byte size ITEMSIZE (used only in
the allocation-limit threshold). -/
def ITEMSIZE : Nat := 24

/-- The sizing pass after the scan, restricted to its observable effect: the
first quantifier level with low > high raises the range error. -/
def findBadQuant : List qlevelS → Option (Nat × Nat)
  | [] => none
  | l :: rest =>
    if l.vars.length ≠ 0 then findBadQuant rest
    else if l.high < l.low then some (l.low, l.high)
    else findBadQuant rest

/-- Fill one variant: its length, flag and unescaped name. -/
def fillVar (v : qvar) : Except PErr lquery_variant :=
  match copy_unescaped v.span v.len with
  | .error e => .error e
  | .ok nm => .ok ⟨v.len, v.flag, nm⟩

/-- Fill the variants of one level in order. -/
def fillVars : List qvar → Except PErr (List lquery_variant)
  | [] => .ok []
  | v :: rest =>
    match fillVar v with
    | .error e => .error e
    | .ok fv =>
      match fillVars rest with
      | .error e => .error e
      | .ok out => .ok (fv :: out)

/-- The fill pass over the scratch levels, threading the wasbad accumulator
and counting firstgood. -/
def lqFill : List qlevelS → Bool → Except PErr (List lquery_level × Nat)
  | [], _ => .ok ([], 0)
  | l :: rest, wasbad =>
    if l.vars.length ≠ 0 then
      match fillVars l.vars with
      | .error e => .error e
      | .ok vs =>
        match lqFill rest (wasbad || (1 < l.vars.length || l.flag ≠ 0)) with
        | .error e => .error e
        | .ok (ls, fg) =>
          .ok (⟨vs, l.flag, l.low, l.high⟩ :: ls,
            (if !(1 < l.vars.length || l.flag ≠ 0 : Bool) && !wasbad then 1 else 0) + fg)
    else
      match lqFill rest true with
      | .error e => .error e
      | .ok (ls, fg) => .ok (⟨[], l.flag, l.low, l.high⟩ :: ls, fg)

/-- lquery_in: decode pattern text into the lquery record. The fill and
sizing passes walk the allocated level slots, so only the first
count_lquery_parts_ors levels of the scanned list are used; hasnot is set
during the scan (here: from the scanned levels, which retain the bit). -/
def lquery_in (buf : MStr) : Except PErr lquery :=
  if MaxAllocSize / ITEMSIZE < (count_lquery_parts_ors buf).1 then
    .error (.levelLimit (count_lquery_parts_ors buf).1 (MaxAllocSize / ITEMSIZE))
  else
    match lqScan buf 0 .waitLevel ⟨0, 0, 0, [], ⟨[], 0, 0, 0⟩, []⟩ with
    | .error e => .error e
    | .ok scanned =>
      match findBadQuant (scanned.take (count_lquery_parts_ors buf).1) with
      | some (lo, hi) => .error (.range lo hi)
      | none =>
        match lqFill (scanned.take (count_lquery_parts_ors buf).1) false with
        | .error e => .error e
        | .ok (ls, fg) =>
          .ok ⟨ls, fg,
            if scanned.any (fun l => (l.flag &&& LQL_NOT) != 0) then LQUERY_HASNOT
            else 0⟩

example : lquery_in [[97]] = .ok ⟨[⟨[⟨1, 0, [[97]]⟩], 0, 0, 0⟩], 1, 0⟩ := rfl

example : lquery_in [[97], [46], [98]]
    = .ok ⟨[⟨[⟨1, 0, [[97]]⟩], 0, 0, 0⟩, ⟨[⟨1, 0, [[98]]⟩], 0, 0, 0⟩], 2, 0⟩ := rfl

example : lquery_in [[42]] = .ok ⟨[⟨[], 0, 0, 65535⟩], 0, 0⟩ := rfl

example : lquery_in [[42], [123], [50], [44], [53], [125]]
    = .ok ⟨[⟨[], 0, 2, 5⟩], 0, 0⟩ := rfl

example : lquery_in [[42], [123], [53], [44], [50], [125]] = .error (.range 5 2) := rfl

example : lquery_in [[33], [97], [124], [98]]
    = .ok ⟨[⟨[⟨1, 0, [[97]]⟩, ⟨1, 0, [[98]]⟩], 16, 0, 0⟩], 0, 1⟩ := rfl

example : lquery_in [[97], [64], [64]]
    = .ok ⟨[⟨[⟨2, 2, [[97], [64]]⟩], 2, 0, 0⟩], 0, 0⟩ := rfl

example : lquery_in [[97], [123], [49], [44], [50], [125]]
    = .ok ⟨[⟨[⟨6, 0, [[97], [123], [49], [44], [50], [125]]⟩], 0, 0, 0⟩], 1, 0⟩ := rfl

example : lquery_in [[97], [46], [42], [46], [98]]
    = .ok ⟨[⟨[⟨1, 0, [[97]]⟩], 0, 0, 0⟩, ⟨[], 0, 0, 65535⟩,
            ⟨[⟨1, 0, [[98]]⟩], 0, 0, 0⟩], 1, 0⟩ := rfl

example : lquery_in [] = .error .eol := rfl

example : lquery_in [[97], [64], [98]] = .error (.unchar 2) := rfl

theorem fillVars_length : ∀ (vs : List qvar) (out : List lquery_variant),
    fillVars vs = .ok out → out.length = vs.length := by
  intro vs
  induction vs with
  | nil =>
    intro out h
    simp only [fillVars, Except.ok.injEq] at h
    subst h; rfl
  | cons v rest ih =>
    intro out h
    simp only [fillVars] at h
    cases hfv : fillVar v with
    | error e => rw [hfv] at h; exact absurd h (by simp)
    | ok fv =>
      rw [hfv] at h
      cases hrec : fillVars rest with
      | error e => rw [hrec] at h; exact absurd h (by simp)
      | ok out' =>
        rw [hrec] at h
        simp only [Except.ok.injEq] at h
        subst h
        simp [ih out' hrec]

theorem lqFill_fg : ∀ (ls : List qlevelS) (b : Bool) (out : List lquery_level) (fg : Nat),
    lqFill ls b = .ok (out, fg) →
    fg = if b then 0
         else (out.takeWhile (fun l => l.vars.length == 1 && l.flag == 0)).length := by
  intro ls
  induction ls with
  | nil =>
    intro b out fg h
    simp only [lqFill, Except.ok.injEq, Prod.mk.injEq] at h
    obtain ⟨h1, h2⟩ := h
    cases b <;> simp [← h1, ← h2]
  | cons l rest ih =>
    intro b out fg h
    by_cases hv : l.vars.length ≠ 0
    · simp only [lqFill, if_pos hv] at h
      cases hfv : fillVars l.vars with
      | error e => rw [hfv] at h; exact absurd h (by simp)
      | ok vs =>
        rw [hfv] at h
        cases hrec : lqFill rest (b || (1 < l.vars.length || l.flag ≠ 0)) with
        | error e => rw [hrec] at h; exact absurd h (by simp)
        | ok p =>
          obtain ⟨ls', fg'⟩ := p
          rw [hrec] at h
          simp only [Except.ok.injEq, Prod.mk.injEq] at h
          obtain ⟨hout, hfg⟩ := h
          subst hout
          have hlen := fillVars_length l.vars vs hfv
          cases b with
          | true =>
            have hfg' := ih _ _ _ hrec
            simp only [Bool.true_or, if_true] at hfg'
            simp [← hfg, hfg']
          | false =>
            cases hbad : (1 < l.vars.length || decide (l.flag ≠ 0)) with
            | true =>
              have hrec' : lqFill rest true = .ok (ls', fg') := by
                rw [← hrec]
                congr 1
                simp only [Bool.false_or]
                exact hbad.symm
              have hfg' := ih _ _ _ hrec'
              simp only [if_true] at hfg'
              have hinc : (if (!(1 < l.vars.length || l.flag ≠ 0 : Bool) && !false : Bool)
                  = true then 1 else 0) = 0 := by
                simp only [Bool.not_false, Bool.and_true]
                rw [hbad]
                simp
              rw [hinc] at hfg
              have hpred : ((vs.length == 1 && l.flag == 0) : Bool) = false := by
                rcases Bool.or_eq_true_iff.mp hbad with hlt | hne
                · have : 1 < l.vars.length := by simpa using hlt
                  have : vs.length ≠ 1 := by omega
                  simp [this]
                · have : l.flag ≠ 0 := by simpa using hne
                  simp [this]
              simp only [if_false, List.takeWhile, hpred, Bool.false_eq_true]
              simp [← hfg, hfg']
            | false =>
              have hrec' : lqFill rest false = .ok (ls', fg') := by
                rw [← hrec]
                congr 1
                simp only [Bool.false_or]
                exact hbad.symm
              have hfg' := ih _ _ _ hrec'
              simp only [Bool.false_eq_true, if_false] at hfg'
              have h1 : l.vars.length = 1 := by
                have h2 := Bool.or_eq_false_iff.mp hbad
                have : ¬ (1 < l.vars.length) := by simpa using h2.1
                omega
              have h0 : l.flag = 0 := by
                have h2 := Bool.or_eq_false_iff.mp hbad
                simpa using h2.2
              have hinc : (if (!(1 < l.vars.length || l.flag ≠ 0 : Bool) && !false : Bool)
                  = true then 1 else 0) = 1 := by
                simp only [Bool.not_false, Bool.and_true]
                rw [hbad]
                simp
              rw [hinc] at hfg
              have hpred : ((vs.length == 1 && l.flag == 0) : Bool) = true := by
                simp [hlen, h1, h0]
              simp only [if_false, List.takeWhile, hpred, if_true, Bool.false_eq_true]
              simp [← hfg, hfg']
              omega
    · simp only [lqFill, if_neg hv] at h
      cases hrec : lqFill rest true with
      | error e => rw [hrec] at h; exact absurd h (by simp)
      | ok p =>
        obtain ⟨ls', fg'⟩ := p
        rw [hrec] at h
        simp only [Except.ok.injEq, Prod.mk.injEq] at h
        obtain ⟨hout, hfg⟩ := h
        subst hout
        have hfg' := ih _ _ _ hrec
        simp only [if_true] at hfg'
        have hlen0 : l.vars.length = 0 := by omega
        cases b with
        | true => simp [← hfg, hfg']
        | false =>
          have hpred : ((([] : List lquery_variant).length == 1 && l.flag == 0) : Bool)
              = false := by simp
          simp only [if_false, List.takeWhile, hpred, Bool.false_eq_true]
          simp [← hfg, hfg']

theorem lquery_in_ok_inv {buf : MStr} {q : lquery} (h : lquery_in buf = .ok q) :
    ∃ scanned,
      lqScan buf 0 .waitLevel ⟨0, 0, 0, [], ⟨[], 0, 0, 0⟩, []⟩ = .ok scanned ∧
      findBadQuant (scanned.take (count_lquery_parts_ors buf).1) = none ∧
      ∃ ls fg, lqFill (scanned.take (count_lquery_parts_ors buf).1) false = .ok (ls, fg) ∧
        q = ⟨ls, fg,
          if scanned.any (fun l => (l.flag &&& LQL_NOT) != 0) then LQUERY_HASNOT
          else 0⟩ := by
  rw [lquery_in] at h
  split at h
  · exact absurd h (by simp)
  · cases hscan : lqScan buf 0 .waitLevel ⟨0, 0, 0, [], ⟨[], 0, 0, 0⟩, []⟩ with
    | error e => rw [hscan] at h; exact absurd h (by simp)
    | ok scanned =>
      rw [hscan] at h
      replace h : (match findBadQuant (scanned.take (count_lquery_parts_ors buf).1) with
        | some (lo, hi) => (Except.error (PErr.range lo hi) : Except PErr lquery)
        | none =>
          match lqFill (scanned.take (count_lquery_parts_ors buf).1) false with
          | Except.error e => Except.error e
          | Except.ok (ls, fg) =>
            Except.ok (⟨ls, fg,
              if scanned.any (fun l => (l.flag &&& LQL_NOT) != 0) then LQUERY_HASNOT
              else 0⟩ : lquery)) = Except.ok q := h
      cases hbad : findBadQuant (scanned.take (count_lquery_parts_ors buf).1) with
      | some p => rw [hbad] at h; obtain ⟨lo, hi⟩ := p; exact absurd h (by simp)
      | none =>
        rw [hbad] at h
        cases hfill : lqFill (scanned.take (count_lquery_parts_ors buf).1) false with
        | error e => rw [hfill] at h; exact absurd h (by simp)
        | ok p =>
          obtain ⟨ls, fg⟩ := p
          rw [hfill] at h
          simp only [Except.ok.injEq] at h
          exact ⟨scanned, rfl, hbad, ls, fg, hfill, h.symm⟩

/-- C2: for every accepted pattern, firstgood is the length of the longest
prefix of levels that are plain: exactly one alternative and a zero flag
word (no modifier flags, not negated); a later plain level after a non-plain
one is never counted. -/
theorem C2_firstgood (buf : MStr) (q : lquery) (h : lquery_in buf = .ok q) :
    q.firstgood
      = (q.levels.takeWhile (fun l => l.vars.length == 1 && l.flag == 0)).length := by
  obtain ⟨scanned, hscan, hbad, ls, fg, hfill, hq⟩ := lquery_in_ok_inv h
  subst hq
  simpa using lqFill_fg _ false ls fg hfill

/-- C2 witness input a.*.b: the quantifier in the middle stops firstgood at 1
even though the last level is plain. -/
theorem C2_firstgood_witness :
    lquery_in [[97], [46], [42], [46], [98]]
      = .ok ⟨[⟨[⟨1, 0, [[97]]⟩], 0, 0, 0⟩, ⟨[], 0, 0, 65535⟩,
              ⟨[⟨1, 0, [[98]]⟩], 0, 0, 0⟩], 1, 0⟩ ∧
    (⟨[⟨[⟨1, 0, [[97]]⟩], 0, 0, 0⟩, ⟨[], 0, 0, 65535⟩,
       ⟨[⟨1, 0, [[98]]⟩], 0, 0, 0⟩], 1, 0⟩ : lquery).firstgood
      = ((⟨[⟨[⟨1, 0, [[97]]⟩], 0, 0, 0⟩, ⟨[], 0, 0, 65535⟩,
           ⟨[⟨1, 0, [[98]]⟩], 0, 0, 0⟩], 1, 0⟩ : lquery).levels.takeWhile
          (fun l => l.vars.length == 1 && l.flag == 0)).length :=
  ⟨rfl, C2_firstgood [[97], [46], [42], [46], [98]] _ rfl⟩

theorem findBadQuant_some : ∀ (ls : List qlevelS) (lo hi : Nat),
    findBadQuant ls = some (lo, hi) →
    hi < lo ∧ ∃ l ∈ ls, l.vars = [] ∧ l.low = lo ∧ l.high = hi := by
  intro ls
  induction ls with
  | nil => intro lo hi h; simp [findBadQuant] at h
  | cons l rest ih =>
    intro lo hi h
    by_cases hv : l.vars.length ≠ 0
    · simp only [findBadQuant, if_pos hv] at h
      obtain ⟨hlt, l', hl', hrest⟩ := ih lo hi h
      exact ⟨hlt, l', by simp [hl'], hrest⟩
    · simp only [findBadQuant, if_neg hv] at h
      split at h
      · rename_i hlh
        simp only [Option.some.injEq, Prod.mk.injEq] at h
        obtain ⟨h1, h2⟩ := h
        subst h1; subst h2
        exact ⟨hlh, l, by simp, List.length_eq_zero.mp (by omega), rfl, rfl⟩
      · obtain ⟨hlt, l', hl', hrest⟩ := ih lo hi h
        exact ⟨hlt, l', by simp [hl'], hrest⟩

/-- C6: when the scan completes without error and some allocated quantifier
level has low > high, lquery_in fails with the range error carrying that
level's bounds: the error is raised by the sizing stage after the scan, not
during the scan. -/
theorem C6_range_at_sizing (buf : MStr) (scanned : List qlevelS) (lo hi : Nat)
    (hlim : ¬ (MaxAllocSize / ITEMSIZE < (count_lquery_parts_ors buf).1))
    (hscan : lqScan buf 0 .waitLevel ⟨0, 0, 0, [], ⟨[], 0, 0, 0⟩, []⟩ = .ok scanned)
    (hbad : findBadQuant (scanned.take (count_lquery_parts_ors buf).1) = some (lo, hi)) :
    lquery_in buf = .error (.range lo hi) ∧ hi < lo := by
  refine ⟨?_, (findBadQuant_some _ lo hi hbad).1⟩
  rw [lquery_in, if_neg hlim, hscan]
  show (match findBadQuant (scanned.take (count_lquery_parts_ors buf).1) with
    | some (lo, hi) => (Except.error (PErr.range lo hi) : Except PErr lquery)
    | none =>
      match lqFill (scanned.take (count_lquery_parts_ors buf).1) false with
      | Except.error e => Except.error e
      | Except.ok (ls, fg) =>
        Except.ok (⟨ls, fg,
          if scanned.any (fun l => (l.flag &&& LQL_NOT) != 0) then LQUERY_HASNOT
          else 0⟩ : lquery)) = Except.error (PErr.range lo hi)
  rw [hbad]

/-- C6 witness: *{5,2} scans cleanly and then fails at sizing with the range
error reporting both bounds. -/
theorem C6_range_witness :
    lquery_in [[42], [123], [53], [44], [50], [125]] = .error (.range 5 2) ∧ 2 < 5 :=
  C6_range_at_sizing [[42], [123], [53], [44], [50], [125]] [⟨[], 0, 5, 2⟩] 5 2
    (by decide) rfl rfl

/-- The pattern text a{1,2}. -/
def pat7 : MStr := [[97], [123], [49], [44], [50], [125]]

/-- Whether a decode succeeded. -/
def isOkE : Except PErr lquery → Bool
  | .ok _ => true
  | .error _ => false

/-- C7 counterexample: decoding a{1,2} does not fail — the claimed
SyntaxError does not occur. -/
theorem C7_cex : isOkE (lquery_in pat7) = true := rfl

/-- C7 amended: decoding a{1,2} succeeds; outside a quantifier context the
braces, digits and comma are ordinary name characters, so the result is one
plain level whose single alternative is the six-byte name a{1,2}. -/
theorem C7_amended :
    lquery_in pat7
      = .ok ⟨[⟨[⟨6, 0, [[97], [123], [49], [44], [50], [125]]⟩], 0, 0, 0⟩], 1, 0⟩ := rfl

/-- C8 counterexample: a@@ and a@ decode to different records — the repeated
modifier grows the stored name to a@ (length 2), so re-application is not a
no-op. -/
theorem C8_cex :
    lquery_in [[97], [64], [64]] = .ok ⟨[⟨[⟨2, 2, [[97], [64]]⟩], 2, 0, 0⟩], 0, 0⟩ ∧
    lquery_in [[97], [64]] = .ok ⟨[⟨[⟨1, 2, [[97]]⟩], 2, 0, 0⟩], 0, 0⟩ ∧
    (⟨[⟨[⟨2, 2, [[97], [64]]⟩], 2, 0, 0⟩], 0, 0⟩ : lquery)
      ≠ ⟨[⟨[⟨1, 2, [[97]]⟩], 2, 0, 0⟩], 0, 0⟩ :=
  ⟨rfl, rfl, by decide⟩

theorem countAux_none : ∀ (s : MStr),
    (∀ c ∈ s, isOne c 92 = false ∧ isOne c 46 = false ∧ isOne c 124 = false) →
    countAux s false = (0, 0) := by
  intro s
  induction s with
  | nil => intro _; rfl
  | cons c rest ih =>
    intro h
    obtain ⟨h92, h46, h124⟩ := h c (by simp)
    simp only [countAux, h92, h46, h124, Bool.false_eq_true, if_false]
    exact ih (fun d hd => h d (by simp [hd]))

theorem lenB_replicate (n b : Nat) : lenB (List.replicate n ([b] : MChar)) = n := by
  induction n with
  | zero => rfl
  | succ n ih =>
    simp [List.replicate_succ, ih]
    omega

/-- Assemble a successful lquery_in run from its three stages. -/
theorem lquery_in_build {buf : MStr} {scanned : List qlevelS} {ls : List lquery_level}
    {fg : Nat}
    (hlim : ¬ (MaxAllocSize / ITEMSIZE < (count_lquery_parts_ors buf).1))
    (hscan : lqScan buf 0 .waitLevel ⟨0, 0, 0, [], ⟨[], 0, 0, 0⟩, []⟩ = .ok scanned)
    (hbad : findBadQuant (scanned.take (count_lquery_parts_ors buf).1) = none)
    (hfill : lqFill (scanned.take (count_lquery_parts_ors buf).1) false = .ok (ls, fg)) :
    lquery_in buf = .ok ⟨ls, fg,
      if scanned.any (fun l => (l.flag &&& LQL_NOT) != 0) then LQUERY_HASNOT
      else 0⟩ := by
  rw [lquery_in, if_neg hlim, hscan]
  show (match findBadQuant (scanned.take (count_lquery_parts_ors buf).1) with
    | some (lo, hi) => (Except.error (PErr.range lo hi) : Except PErr lquery)
    | none =>
      match lqFill (scanned.take (count_lquery_parts_ors buf).1) false with
      | Except.error e => Except.error e
      | Except.ok (ls, fg) =>
        Except.ok (⟨ls, fg,
          if scanned.any (fun l => (l.flag &&& LQL_NOT) != 0) then LQUERY_HASNOT
          else 0⟩ : lquery))
    = Except.ok (⟨ls, fg,
        if scanned.any (fun l => (l.flag &&& LQL_NOT) != 0) then LQUERY_HASNOT
        else 0⟩ : lquery)
  rw [hbad]
  show (match lqFill (scanned.take (count_lquery_parts_ors buf).1) false with
    | Except.error e => Except.error e
    | Except.ok (ls, fg) =>
      Except.ok (⟨ls, fg,
        if scanned.any (fun l => (l.flag &&& LQL_NOT) != 0) then LQUERY_HASNOT
        else 0⟩ : lquery))
    = Except.ok (⟨ls, fg,
        if scanned.any (fun l => (l.flag &&& LQL_NOT) != 0) then LQUERY_HASNOT
        else 0⟩ : lquery)
  rw [hfill]

theorem lqScan_ats : ∀ (j pos : Nat) (span : MStr) (wlen : Nat) (acc : List qlevelS),
    span ≠ [] →
    lqScan (List.replicate j ([64] : MChar)) pos .waitDelim
      ⟨2, 0, 0, [], ⟨span, 2, wlen, 0⟩, acc⟩
    = lqScan [] (pos + j) .waitDelim
      ⟨2, 0, 0, [], ⟨span ++ List.replicate j ([64] : MChar), 2, wlen + j, 0⟩, acc⟩ := by
  intro j
  induction j with
  | zero => intro pos span wlen acc _; simp
  | succ j ih =>
    intro pos span wlen acc hsp
    rw [List.replicate_succ]
    have hne : span.isEmpty = false := by
      cases span with
      | nil => exact absurd rfl hsp
      | cons x xs => rfl
    have hstep : lqScan (([64] : MChar) :: List.replicate j ([64] : MChar)) pos .waitDelim
        ⟨2, 0, 0, [], ⟨span, 2, wlen, 0⟩, acc⟩
      = lqScan (List.replicate j ([64] : MChar)) (pos + 1) .waitDelim
        ⟨2 ||| LVAR_INCASE, 0, 0, [],
         ⟨span ++ [[64]], 2 ||| LVAR_INCASE, wlen + 1, 0⟩, acc⟩ := by
      simp [lqScan, isOne, t_iseq, hne]
    rw [hstep, show (2 ||| LVAR_INCASE : Nat) = 2 by decide]
    rw [ih (pos + 1) (span ++ [[64]]) (wlen + 1) acc (by simp)]
    have e1 : pos + 1 + j = pos + (j + 1) := by omega
    have e2 : (span ++ [[64]]) ++ List.replicate j ([64] : MChar)
        = span ++ ([64] : MChar) :: List.replicate j ([64] : MChar) := by simp
    have e3 : wlen + 1 + j = wlen + (j + 1) := by omega
    rw [e1, e2, e3]

/-- C8 amended: re-applying '@' is accepted and sets the flag once, but each
repeated modifier character is retained in the stored name: a followed by k
'@'s stores the name a followed by k-1 '@'s, with length k and the
case-insensitive flag. -/
theorem C8_repeat_modifier (k : Nat) (h1 : 1 ≤ k) (h2 : k ≤ 254) :
    lquery_in (([97] : MChar) :: List.replicate k ([64] : MChar))
      = .ok ⟨[⟨[⟨k, 2, ([97] : MChar) :: List.replicate (k - 1) ([64] : MChar)⟩],
              2, 0, 0⟩], 0, 0⟩ := by
  obtain ⟨k', rfl⟩ : ∃ k', k = k' + 1 := ⟨k - 1, by omega⟩
  have hcount : count_lquery_parts_ors (([97] : MChar) :: List.replicate (k' + 1) [64])
      = (1, 1) := by
    have h0 := countAux_none (([97] : MChar) :: List.replicate (k' + 1) [64]) (by
      intro c hc
      rcases List.mem_cons.mp hc with h | h
      · subst h; exact ⟨rfl, rfl, rfl⟩
      · have : c = [64] := (List.mem_replicate.mp h).2
        subst this; exact ⟨rfl, rfl, rfl⟩)
    simp [count_lquery_parts_ors, h0]
  have hscan : lqScan (([97] : MChar) :: List.replicate (k' + 1) [64]) 0 .waitLevel
        ⟨0, 0, 0, [], ⟨[], 0, 0, 0⟩, []⟩
      = .ok [⟨[⟨([97] : MChar) :: List.replicate (k' + 1) [64], 2, k' + 2, 0⟩],
             2, 0, 0⟩] := by
    have hstep1 : lqScan (([97] : MChar) :: List.replicate (k' + 1) [64]) 0 .waitLevel
          ⟨0, 0, 0, [], ⟨[], 0, 0, 0⟩, []⟩
        = lqScan (List.replicate (k' + 1) ([64] : MChar)) 1 .waitDelim
          ⟨0, 0, 0, [], ⟨[[97]], 0, 1, 0⟩, []⟩ := by
      simp [lqScan, t_iseq]
    rw [hstep1, List.replicate_succ]
    have hstep2 : lqScan (([64] : MChar) :: List.replicate k' ([64] : MChar)) 1 .waitDelim
          ⟨0, 0, 0, [], ⟨[[97]], 0, 1, 0⟩, []⟩
        = lqScan (List.replicate k' ([64] : MChar)) 2 .waitDelim
          ⟨0 ||| LVAR_INCASE, 0, 0, [],
           ⟨[[97], [64]], 0 ||| LVAR_INCASE, 2, 0⟩, []⟩ := by
      simp [lqScan, isOne, t_iseq]
    rw [hstep2, show (0 ||| LVAR_INCASE : Nat) = 2 by decide]
    rw [lqScan_ats k' 2 [[97], [64]] 2 [] (by simp)]
    have hsp : ([[97], [64]] : MStr) ++ List.replicate k' [64]
        = ([97] : MChar) :: List.replicate (k' + 1) [64] := by
      simp [List.replicate_succ]
    rw [hsp]
    rw [lqScan]
    have hqlen : qvar.len ⟨([97] : MChar) :: List.replicate (k' + 1) [64], 2, 2 + k', 0⟩
        = k' + 1 := by
      simp only [qvar.len]
      rw [show lenB (([97] : MChar) :: List.replicate (k' + 1) [64]) = k' + 2 by
        simp [lenB_replicate]; omega]
      rw [show flagOnes 2 = 1 by decide]
      omega
    simp only [List.isEmpty_cons, hqlen]
    rw [if_neg (by simp), if_neg (by omega), if_neg (by omega)]
    have heq : (2 : Nat) + k' = k' + 2 := by omega
    rw [heq]
    simp [List.replicate_succ]
  have hbad : findBadQuant (([⟨[⟨([97] : MChar) :: List.replicate (k' + 1) [64], 2,
      k' + 2, 0⟩], 2, 0, 0⟩] : List qlevelS).take
        (count_lquery_parts_ors (([97] : MChar) :: List.replicate (k' + 1) [64])).1)
      = none := by
    rw [hcount]
    simp [findBadQuant]
  have hcopy : copy_unescaped (([97] : MChar) :: List.replicate (k' + 1) [64]) (k' + 1)
      = .ok (([97] : MChar) :: List.replicate k' [64]) := by
    have hnechars : ∀ c ∈ (([97] : MChar) :: List.replicate (k' + 1) [64]), c ≠ [92] := by
      intro c hc
      rcases List.mem_cons.mp hc with h | h
      · subst h; simp
      · have : c = [64] := (List.mem_replicate.mp h).2
        subst this; simp
    have hsplit : unesc (([97] : MChar) :: List.replicate (k' + 1) [64])
        = (([97] : MChar) :: List.replicate k' [64]) ++ [[64]] := by
      rw [unesc_noesc hnechars]
      simp [List.replicate_succ']
    have hw : wellEsc (([97] : MChar) :: List.replicate (k' + 1) [64]) = true :=
      wellEsc_noesc hnechars
    have hne : ∀ c ∈ (([97] : MChar) :: List.replicate (k' + 1) [64]), c ≠ [] := by
      intro c hc
      rcases List.mem_cons.mp hc with h | h
      · subst h; simp
      · have : c = [64] := (List.mem_replicate.mp h).2
        subst this; simp
    have hspec := copy_unescaped_spec
      (s := ([97] : MChar) :: List.replicate (k' + 1) [64])
      [] (([97] : MChar) :: List.replicate k' [64]) [[64]] hw hne hsplit
    rw [List.append_nil] at hspec
    rw [show lenB (([97] : MChar) :: List.replicate k' [64]) = k' + 1 by
      simp [lenB_replicate]; omega] at hspec
    exact hspec
  have hfill : lqFill (([⟨[⟨([97] : MChar) :: List.replicate (k' + 1) [64], 2,
      k' + 2, 0⟩], 2, 0, 0⟩] : List qlevelS).take
        (count_lquery_parts_ors (([97] : MChar) :: List.replicate (k' + 1) [64])).1) false
      = .ok ([⟨[⟨k' + 1, 2, ([97] : MChar) :: List.replicate k' [64]⟩], 2, 0, 0⟩], 0) := by
    rw [hcount]
    have hqlen : qvar.len ⟨([97] : MChar) :: List.replicate (k' + 1) [64], 2,
        k' + 2, 0⟩ = k' + 1 := by
      simp only [qvar.len]
      rw [show lenB (([97] : MChar) :: List.replicate (k' + 1) [64]) = k' + 2 by
        simp [lenB_replicate]; omega]
      rw [show flagOnes 2 = 1 by decide]
      omega
    show lqFill [⟨[⟨([97] : MChar) :: List.replicate (k' + 1) [64], 2, k' + 2, 0⟩],
        2, 0, 0⟩] false = _
    rw [lqFill]
    rw [if_pos (by simp)]
    rw [show fillVars [⟨([97] : MChar) :: List.replicate (k' + 1) [64], 2, k' + 2, 0⟩]
        = .ok [⟨k' + 1, 2, ([97] : MChar) :: List.replicate k' [64]⟩] by
      rw [fillVars, fillVar, hqlen, hcopy]
      rfl]
    rw [lqFill]
    simp
  have hmain := lquery_in_build (by rw [hcount]; decide) hscan hbad hfill
  rw [hmain]
  rw [show (([⟨[⟨([97] : MChar) :: List.replicate (k' + 1) [64], 2, k' + 2, 0⟩],
      2, 0, 0⟩] : List qlevelS).any (fun l => (l.flag &&& LQL_NOT) != 0)) = false
    by simp [LQL_NOT]; decide]
  simp

/-- C8 amended witness at k = 2 (the counterexample shape a@@). -/
theorem C8_repeat_modifier_witness :
    lquery_in (([97] : MChar) :: List.replicate 2 ([64] : MChar))
      = .ok ⟨[⟨[⟨2, 2, ([97] : MChar) :: List.replicate 1 ([64] : MChar)⟩],
              2, 0, 0⟩], 0, 0⟩ :=
  C8_repeat_modifier 2 (by decide) (by decide)

/-- C3 witness: the decoded path of a\ b.c round-trips through ltree_out. -/
theorem C3_ltree_roundtrip_witness :
    ∃ out, ltree_out [⟨3, [[97], [32], [98]]⟩, ⟨1, [[99]]⟩] = .ok out ∧
      ltree_in out = .ok [⟨3, [[97], [32], [98]]⟩, ⟨1, [[99]]⟩] :=
  C3_ltree_roundtrip [[97], [92], [32], [98], [46], [99]] _ (by decide) rfl

/-- The numeric value of a list of ASCII digit bytes, as atoi accumulates it. -/
def dval (ds : List Nat) : Nat := ds.foldl (fun a d => 10 * a + (d - 48)) 0

theorem atoiAux_digits : ∀ (ds : List Nat) (rest : MStr) (acc : Nat),
    (∀ d ∈ ds, 48 ≤ d ∧ d ≤ 57) →
    atoiAux acc (ds.map (fun d => ([d] : MChar)) ++ rest)
      = atoiAux (ds.foldl (fun a d => 10 * a + (d - 48)) acc) rest := by
  intro ds
  induction ds with
  | nil => intro rest acc _; rfl
  | cons d ds' ih =>
    intro rest acc h
    obtain ⟨h1, h2⟩ := h d (by simp)
    simp only [List.map_cons, List.cons_append, atoiAux]
    rw [if_pos (by simp [t_isdigit_single]; omega)]
    simp only [List.headD_cons, List.append_eq]
    rw [ih rest (10 * acc + (d - 48)) (fun x hx => h x (by simp [hx]))]
    rfl

theorem atoiAux_stop : ∀ (rest : MStr) (acc : Nat),
    (∀ c, rest.head? = some c → t_isdigit c = false) → atoiAux acc rest = acc := by
  intro rest acc h
  cases rest with
  | nil => rfl
  | cons c rest' =>
    have := h c rfl
    simp [atoiAux, this]

theorem atoi_digits (ds : List Nat) (rest : MStr)
    (hds : ∀ d ∈ ds, 48 ≤ d ∧ d ≤ 57)
    (hrest : ∀ c, rest.head? = some c → t_isdigit c = false) :
    atoi (ds.map (fun d => ([d] : MChar)) ++ rest) = dval ds := by
  rw [atoi, atoiAux_digits ds rest 0 hds, atoiAux_stop rest _ hrest]
  rfl

theorem lqScan_digits_nd : ∀ (ds : List Nat) (rest : MStr) (pos : Nat) (S : LqSt),
    (∀ d ∈ ds, 48 ≤ d ∧ d ≤ 57) →
    lqScan (ds.map (fun d => ([d] : MChar)) ++ rest) pos .waitNd S
      = lqScan rest (pos + ds.length) .waitNd S := by
  intro ds
  induction ds with
  | nil => intro rest pos S _; simp
  | cons d ds' ih =>
    intro rest pos S h
    obtain ⟨h1, h2⟩ := h d (by simp)
    simp only [List.map_cons, List.cons_append]
    have e125 : isOne ([d] : MChar) 125 = false := by
      simp [isOne_single]; omega
    have e44 : isOne ([d] : MChar) 44 = false := by
      simp [isOne_single]; omega
    have edig : t_isdigit ([d] : MChar) = true := by
      simp [t_isdigit_single]; omega
    simp only [lqScan, e125, e44, edig, Bool.false_eq_true, if_false,
      Bool.not_true, if_true]
    rw [ih rest (pos + 1) S (fun x hx => h x (by simp [hx]))]
    congr 1
    simp [List.length_cons]
    omega

theorem lqScan_digits_close : ∀ (ds : List Nat) (rest : MStr) (pos : Nat) (S : LqSt),
    (∀ d ∈ ds, 48 ≤ d ∧ d ≤ 57) →
    lqScan (ds.map (fun d => ([d] : MChar)) ++ rest) pos .waitClose S
      = lqScan rest (pos + ds.length) .waitClose S := by
  intro ds
  induction ds with
  | nil => intro rest pos S _; simp
  | cons d ds' ih =>
    intro rest pos S h
    obtain ⟨h1, h2⟩ := h d (by simp)
    simp only [List.map_cons, List.cons_append]
    have e125 : isOne ([d] : MChar) 125 = false := by
      simp [isOne_single]; omega
    have edig : t_isdigit ([d] : MChar) = true := by
      simp [t_isdigit_single]; omega
    simp only [lqScan, e125, edig, Bool.false_eq_true, if_false,
      Bool.not_true, if_true]
    rw [ih rest (pos + 1) S (fun x hx => h x (by simp [hx]))]
    congr 1
    simp [List.length_cons]
    omega

theorem digit_char_facts {d : Nat} (h1 : 48 ≤ d) (h2 : d ≤ 57) :
    isOne ([d] : MChar) 92 = false ∧ isOne ([d] : MChar) 46 = false ∧
    isOne ([d] : MChar) 124 = false := by
  refine ⟨?_, ?_, ?_⟩ <;> (simp [isOne_single]; omega)

theorem count_one_of_chars {s : MStr}
    (h : ∀ c ∈ s, isOne c 92 = false ∧ isOne c 46 = false ∧ isOne c 124 = false) :
    count_lquery_parts_ors s = (1, 1) := by
  simp [count_lquery_parts_ors, countAux_none s h]

theorem lqScan_star_brace (ds : List Nat) (tail : MStr)
    (hds : ∀ d ∈ ds, 48 ≤ d ∧ d ≤ 57) (hne : ds ≠ [])
    (htail : ∀ c, tail.head? = some c → t_isdigit c = false) :
    lqScan ([[42], [123]] ++ ds.map (fun d => ([d] : MChar)) ++ tail) 0 .waitLevel
      ⟨0, 0, 0, [], ⟨[], 0, 0, 0⟩, []⟩
    = lqScan tail (2 + ds.length) .waitNd
      ⟨0, dval ds % 65536, 0, [], ⟨[], 0, 0, 0⟩, []⟩ := by
  obtain ⟨d, ds', rfl⟩ : ∃ d ds', ds = d :: ds' := by
    cases ds with
    | nil => exact absurd rfl hne
    | cons d ds' => exact ⟨d, ds', rfl⟩
  obtain ⟨hd1, hd2⟩ := hds d (by simp)
  simp only [List.cons_append, List.nil_append, List.map_cons]
  rw [show lqScan (([42] : MChar) :: ([123] : MChar) :: ([d] : MChar)
        :: (List.map (fun d => ([d] : MChar)) ds' ++ tail)) 0 .waitLevel
        ⟨0, 0, 0, [], ⟨[], 0, 0, 0⟩, []⟩
      = lqScan (([123] : MChar) :: ([d] : MChar)
        :: (List.map (fun d => ([d] : MChar)) ds' ++ tail)) 1 .waitOpen
        ⟨0, 0, 0, [], ⟨[], 0, 0, 0⟩, []⟩ by
    simp [lqScan, t_iseq]]
  rw [show lqScan (([123] : MChar) :: ([d] : MChar)
        :: (List.map (fun d => ([d] : MChar)) ds' ++ tail)) 1 .waitOpen
        ⟨0, 0, 0, [], ⟨[], 0, 0, 0⟩, []⟩
      = lqScan (([d] : MChar) :: (List.map (fun d => ([d] : MChar)) ds' ++ tail)) 2
        .waitFnum ⟨0, 0, 0, [], ⟨[], 0, 0, 0⟩, []⟩ by
    simp [lqScan, isOne, t_iseq]]
  have e44 : isOne ([d] : MChar) 44 = false := by simp [isOne_single]; omega
  have edig : t_isdigit ([d] : MChar) = true := by simp [t_isdigit_single]; omega
  rw [show lqScan (([d] : MChar) :: (List.map (fun d => ([d] : MChar)) ds' ++ tail)) 2
        .waitFnum ⟨0, 0, 0, [], ⟨[], 0, 0, 0⟩, []⟩
      = lqScan (List.map (fun d => ([d] : MChar)) ds' ++ tail) 3 .waitNd
        ⟨0, atoi (([d] : MChar) :: (List.map (fun d => ([d] : MChar)) ds' ++ tail)) % 65536,
         0, [], ⟨[], 0, 0, 0⟩, []⟩ by
    simp only [lqScan, e44, edig, Bool.false_eq_true, if_false, if_true]]
  rw [show atoi (([d] : MChar) :: (List.map (fun d => ([d] : MChar)) ds' ++ tail))
      = dval (d :: ds') by
    rw [show (([d] : MChar) :: (List.map (fun d => ([d] : MChar)) ds' ++ tail))
        = (d :: ds').map (fun d => ([d] : MChar)) ++ tail by simp]
    exact atoi_digits _ tail hds htail]
  rw [lqScan_digits_nd ds' tail 3 _ (fun x hx => hds x (by simp [hx]))]
  congr 1
  simp
  omega

theorem chars_ok_append {a b : MStr}
    (ha : ∀ c ∈ a, isOne c 92 = false ∧ isOne c 46 = false ∧ isOne c 124 = false)
    (hb : ∀ c ∈ b, isOne c 92 = false ∧ isOne c 46 = false ∧ isOne c 124 = false) :
    ∀ c ∈ a ++ b, isOne c 92 = false ∧ isOne c 46 = false ∧ isOne c 124 = false := by
  intro c hc
  rcases List.mem_append.mp hc with h | h
  · exact ha c h
  · exact hb c h

theorem chars_ok_map_digits {ds : List Nat} (hds : ∀ d ∈ ds, 48 ≤ d ∧ d ≤ 57) :
    ∀ c ∈ ds.map (fun d => ([d] : MChar)),
      isOne c 92 = false ∧ isOne c 46 = false ∧ isOne c 124 = false := by
  intro c hc
  obtain ⟨d, hd, hdc⟩ := List.mem_map.mp hc
  obtain ⟨h1, h2⟩ := hds d hd
  subst hdc
  exact digit_char_facts h1 h2

theorem c5a (ds : List Nat) (hne : ds ≠ []) (hds : ∀ d ∈ ds, 48 ≤ d ∧ d ≤ 57)
    (hv : dval ds ≤ 65535) :
    lquery_in ([[42], [123]] ++ ds.map (fun d => ([d] : MChar)) ++ [[125]])
      = .ok ⟨[⟨[], 0, dval ds, dval ds⟩], 0, 0⟩ := by
  have hfront : ∀ c ∈ ([[42], [123]] : MStr),
      isOne c 92 = false ∧ isOne c 46 = false ∧ isOne c 124 = false := by decide
  have hback : ∀ c ∈ ([[125]] : MStr),
      isOne c 92 = false ∧ isOne c 46 = false ∧ isOne c 124 = false := by decide
  have hcount := count_one_of_chars
    (chars_ok_append (chars_ok_append hfront (chars_ok_map_digits hds)) hback)
  have hmod : dval ds % 65536 = dval ds := Nat.mod_eq_of_lt (by omega)
  have hscan : lqScan ([[42], [123]] ++ ds.map (fun d => ([d] : MChar)) ++ [[125]]) 0
        .waitLevel ⟨0, 0, 0, [], ⟨[], 0, 0, 0⟩, []⟩
      = .ok [⟨[], 0, dval ds, dval ds⟩] := by
    rw [lqScan_star_brace ds [[125]] hds hne (by
      intro c hc
      simp only [List.head?_cons, Option.some.injEq] at hc
      subst hc
      rfl)]
    rw [show lqScan ([[125]] : MStr) (2 + ds.length) .waitNd
          ⟨0, dval ds % 65536, 0, [], ⟨[], 0, 0, 0⟩, []⟩
        = lqScan [] (2 + ds.length + 1) .waitEnd
          ⟨0, dval ds % 65536, dval ds % 65536, [], ⟨[], 0, 0, 0⟩, []⟩ by
      simp [lqScan, isOne, t_iseq]]
    rw [lqScan, hmod]
    simp
  have hbad : findBadQuant (([⟨[], 0, dval ds, dval ds⟩] : List qlevelS).take
      (count_lquery_parts_ors
        ([[42], [123]] ++ ds.map (fun d => ([d] : MChar)) ++ [[125]])).1) = none := by
    rw [hcount]
    simp [findBadQuant]
  have hfill : lqFill (([⟨[], 0, dval ds, dval ds⟩] : List qlevelS).take
      (count_lquery_parts_ors
        ([[42], [123]] ++ ds.map (fun d => ([d] : MChar)) ++ [[125]])).1) false
      = .ok ([⟨[], 0, dval ds, dval ds⟩], 0) := by
    rw [hcount]
    show lqFill [⟨[], 0, dval ds, dval ds⟩] false = _
    rw [lqFill]
    simp [lqFill]
  have hmain := lquery_in_build (by rw [hcount]; decide) hscan hbad hfill
  rw [hmain]
  simp

theorem c5b (ds : List Nat) (hne : ds ≠ []) (hds : ∀ d ∈ ds, 48 ≤ d ∧ d ≤ 57)
    (hv : dval ds ≤ 65535) :
    lquery_in ([[42], [123]] ++ ds.map (fun d => ([d] : MChar)) ++ [[44], [125]])
      = .ok ⟨[⟨[], 0, dval ds, 65535⟩], 0, 0⟩ := by
  have hfront : ∀ c ∈ ([[42], [123]] : MStr),
      isOne c 92 = false ∧ isOne c 46 = false ∧ isOne c 124 = false := by decide
  have hback : ∀ c ∈ ([[44], [125]] : MStr),
      isOne c 92 = false ∧ isOne c 46 = false ∧ isOne c 124 = false := by decide
  have hcount := count_one_of_chars
    (chars_ok_append (chars_ok_append hfront (chars_ok_map_digits hds)) hback)
  have hmod : dval ds % 65536 = dval ds := Nat.mod_eq_of_lt (by omega)
  have hscan : lqScan ([[42], [123]] ++ ds.map (fun d => ([d] : MChar)) ++ [[44], [125]]) 0
        .waitLevel ⟨0, 0, 0, [], ⟨[], 0, 0, 0⟩, []⟩
      = .ok [⟨[], 0, dval ds, 65535⟩] := by
    rw [lqScan_star_brace ds [[44], [125]] hds hne (by
      intro c hc
      simp only [List.head?_cons, Option.some.injEq] at hc
      subst hc
      rfl)]
    rw [show lqScan ([[44], [125]] : MStr) (2 + ds.length) .waitNd
          ⟨0, dval ds % 65536, 0, [], ⟨[], 0, 0, 0⟩, []⟩
        = lqScan ([[125]] : MStr) (2 + ds.length + 1) .waitSnum
          ⟨0, dval ds % 65536, 0, [], ⟨[], 0, 0, 0⟩, []⟩ by
      simp [lqScan, isOne, t_iseq]]
    rw [show lqScan ([[125]] : MStr) (2 + ds.length + 1) .waitSnum
          ⟨0, dval ds % 65536, 0, [], ⟨[], 0, 0, 0⟩, []⟩
        = lqScan [] (2 + ds.length + 1 + 1) .waitEnd
          ⟨0, dval ds % 65536, 65535, [], ⟨[], 0, 0, 0⟩, []⟩ by
      simp [lqScan, isOne, t_iseq, t_isdigit]]
    rw [lqScan, hmod]
    simp
  have hbad : findBadQuant (([⟨[], 0, dval ds, 65535⟩] : List qlevelS).take
      (count_lquery_parts_ors
        ([[42], [123]] ++ ds.map (fun d => ([d] : MChar)) ++ [[44], [125]])).1)
      = none := by
    rw [hcount]
    simp only [List.take]
    rw [findBadQuant]
    rw [if_neg (by simp)]
    rw [if_neg (by simp <;> omega)]
    rfl
  have hfill : lqFill (([⟨[], 0, dval ds, 65535⟩] : List qlevelS).take
      (count_lquery_parts_ors
        ([[42], [123]] ++ ds.map (fun d => ([d] : MChar)) ++ [[44], [125]])).1) false
      = .ok ([⟨[], 0, dval ds, 65535⟩], 0) := by
    rw [hcount]
    show lqFill [⟨[], 0, dval ds, 65535⟩] false = _
    rw [lqFill]
    simp [lqFill]
  have hmain := lquery_in_build (by rw [hcount]; decide) hscan hbad hfill
  rw [hmain]
  simp

theorem c5c (ds : List Nat) (hne : ds ≠ []) (hds : ∀ d ∈ ds, 48 ≤ d ∧ d ≤ 57)
    (hv : dval ds ≤ 65535) :
    lquery_in ([[42], [123], [44]] ++ ds.map (fun d => ([d] : MChar)) ++ [[125]])
      = .ok ⟨[⟨[], 0, 0, dval ds⟩], 0, 0⟩ := by
  obtain ⟨d, ds', rfl⟩ : ∃ d ds', ds = d :: ds' := by
    cases ds with
    | nil => exact absurd rfl hne
    | cons d ds' => exact ⟨d, ds', rfl⟩
  obtain ⟨hd1, hd2⟩ := hds d (by simp)
  have hfront : ∀ c ∈ ([[42], [123], [44]] : MStr),
      isOne c 92 = false ∧ isOne c 46 = false ∧ isOne c 124 = false := by decide
  have hback : ∀ c ∈ ([[125]] : MStr),
      isOne c 92 = false ∧ isOne c 46 = false ∧ isOne c 124 = false := by decide
  have hcount := count_one_of_chars
    (chars_ok_append (chars_ok_append hfront (chars_ok_map_digits hds)) hback)
  have hmod : dval (d :: ds') % 65536 = dval (d :: ds') := Nat.mod_eq_of_lt (by omega)
  have e44 : isOne ([d] : MChar) 44 = false := by simp [isOne_single]; omega
  have e125 : isOne ([d] : MChar) 125 = false := by simp [isOne_single]; omega
  have edig : t_isdigit ([d] : MChar) = true := by simp [t_isdigit_single]; omega
  have hscan : lqScan ([[42], [123], [44]] ++ (d :: ds').map (fun d => ([d] : MChar))
        ++ [[125]]) 0 .waitLevel ⟨0, 0, 0, [], ⟨[], 0, 0, 0⟩, []⟩
      = .ok [⟨[], 0, 0, dval (d :: ds')⟩] := by
    simp only [List.cons_append, List.nil_append, List.map_cons]
    rw [show lqScan (([42] : MChar) :: ([123] : MChar) :: ([44] : MChar) :: ([d] : MChar)
          :: (List.map (fun d => ([d] : MChar)) ds' ++ [[125]])) 0 .waitLevel
          ⟨0, 0, 0, [], ⟨[], 0, 0, 0⟩, []⟩
        = lqScan (([123] : MChar) :: ([44] : MChar) :: ([d] : MChar)
          :: (List.map (fun d => ([d] : MChar)) ds' ++ [[125]])) 1 .waitOpen
          ⟨0, 0, 0, [], ⟨[], 0, 0, 0⟩, []⟩ by
      simp [lqScan, t_iseq]]
    rw [show lqScan (([123] : MChar) :: ([44] : MChar) :: ([d] : MChar)
          :: (List.map (fun d => ([d] : MChar)) ds' ++ [[125]])) 1 .waitOpen
          ⟨0, 0, 0, [], ⟨[], 0, 0, 0⟩, []⟩
        = lqScan (([44] : MChar) :: ([d] : MChar)
          :: (List.map (fun d => ([d] : MChar)) ds' ++ [[125]])) 2 .waitFnum
          ⟨0, 0, 0, [], ⟨[], 0, 0, 0⟩, []⟩ by
      simp [lqScan, isOne, t_iseq]]
    rw [show lqScan (([44] : MChar) :: ([d] : MChar)
          :: (List.map (fun d => ([d] : MChar)) ds' ++ [[125]])) 2 .waitFnum
          ⟨0, 0, 0, [], ⟨[], 0, 0, 0⟩, []⟩
        = lqScan (([d] : MChar) :: (List.map (fun d => ([d] : MChar)) ds' ++ [[125]])) 3
          .waitSnum ⟨0, 0, 0, [], ⟨[], 0, 0, 0⟩, []⟩ by
      simp [lqScan, isOne, t_iseq]]
    rw [show lqScan (([d] : MChar) :: (List.map (fun d => ([d] : MChar)) ds' ++ [[125]])) 3
          .waitSnum ⟨0, 0, 0, [], ⟨[], 0, 0, 0⟩, []⟩
        = lqScan (List.map (fun d => ([d] : MChar)) ds' ++ [[125]]) 4 .waitClose
          ⟨0, 0, atoi (([d] : MChar) :: (List.map (fun d => ([d] : MChar)) ds'
            ++ [[125]])) % 65536, [], ⟨[], 0, 0, 0⟩, []⟩ by
      simp only [lqScan, edig, if_true]]
    rw [show atoi (([d] : MChar) :: (List.map (fun d => ([d] : MChar)) ds' ++ [[125]]))
        = dval (d :: ds') by
      rw [show (([d] : MChar) :: (List.map (fun d => ([d] : MChar)) ds' ++ [[125]]))
          = (d :: ds').map (fun d => ([d] : MChar)) ++ [[125]] by simp]
      exact atoi_digits _ [[125]] hds (by
        intro c hc
        simp only [List.head?_cons, Option.some.injEq] at hc
        subst hc
        rfl)]
    rw [lqScan_digits_close ds' [[125]] 4 _ (fun x hx => hds x (by simp [hx]))]
    rw [show lqScan ([[125]] : MStr) (4 + ds'.length) .waitClose
          ⟨0, 0, dval (d :: ds') % 65536, [], ⟨[], 0, 0, 0⟩, []⟩
        = lqScan [] (4 + ds'.length + 1) .waitEnd
          ⟨0, 0, dval (d :: ds') % 65536, [], ⟨[], 0, 0, 0⟩, []⟩ by
      simp [lqScan, isOne, t_iseq]]
    rw [lqScan, hmod]
    simp
  have hbad : findBadQuant (([⟨[], 0, 0, dval (d :: ds')⟩] : List qlevelS).take
      (count_lquery_parts_ors ([[42], [123], [44]]
        ++ (d :: ds').map (fun d => ([d] : MChar)) ++ [[125]])).1) = none := by
    rw [hcount]
    simp only [List.take]
    rw [findBadQuant]
    rw [if_neg (by simp)]
    rw [if_neg (by simp <;> omega)]
    rfl
  have hfill : lqFill (([⟨[], 0, 0, dval (d :: ds')⟩] : List qlevelS).take
      (count_lquery_parts_ors ([[42], [123], [44]]
        ++ (d :: ds').map (fun d => ([d] : MChar)) ++ [[125]])).1) false
      = .ok ([⟨[], 0, 0, dval (d :: ds')⟩], 0) := by
    rw [hcount]
    show lqFill [⟨[], 0, 0, dval (d :: ds')⟩] false = _
    rw [lqFill]
    simp [lqFill]
  have hmain := lquery_in_build (by rw [hcount]; decide) hscan hbad hfill
  rw [hmain]
  simp

theorem c5d (ds1 ds2 : List Nat) (hne1 : ds1 ≠ []) (hds1 : ∀ d ∈ ds1, 48 ≤ d ∧ d ≤ 57)
    (hv1 : dval ds1 ≤ 65535) (hne2 : ds2 ≠ []) (hds2 : ∀ d ∈ ds2, 48 ≤ d ∧ d ≤ 57)
    (hv2 : dval ds2 ≤ 65535) (hle : dval ds1 ≤ dval ds2) :
    lquery_in ([[42], [123]] ++ ds1.map (fun d => ([d] : MChar)) ++ [[44]]
        ++ ds2.map (fun d => ([d] : MChar)) ++ [[125]])
      = .ok ⟨[⟨[], 0, dval ds1, dval ds2⟩], 0, 0⟩ := by
  obtain ⟨d, ds2', rfl⟩ : ∃ d ds2', ds2 = d :: ds2' := by
    cases ds2 with
    | nil => exact absurd rfl hne2
    | cons d ds2' => exact ⟨d, ds2', rfl⟩
  obtain ⟨hd1, hd2⟩ := hds2 d (by simp)
  have hshape : ([[42], [123]] ++ ds1.map (fun d => ([d] : MChar)) ++ [[44]]
        ++ (d :: ds2').map (fun d => ([d] : MChar)) ++ [[125]] : MStr)
      = [[42], [123]] ++ ds1.map (fun d => ([d] : MChar))
        ++ ([[44]] ++ ((d :: ds2').map (fun d => ([d] : MChar)) ++ [[125]])) := by
    simp [List.append_assoc]
  have hfront : ∀ c ∈ ([[42], [123]] : MStr),
      isOne c 92 = false ∧ isOne c 46 = false ∧ isOne c 124 = false := by decide
  have hmid : ∀ c ∈ ([[44]] : MStr),
      isOne c 92 = false ∧ isOne c 46 = false ∧ isOne c 124 = false := by decide
  have hback : ∀ c ∈ ([[125]] : MStr),
      isOne c 92 = false ∧ isOne c 46 = false ∧ isOne c 124 = false := by decide
  have hcount := count_one_of_chars (s := [[42], [123]]
      ++ ds1.map (fun d => ([d] : MChar))
      ++ ([[44]] ++ ((d :: ds2').map (fun d => ([d] : MChar)) ++ [[125]])))
    (chars_ok_append (chars_ok_append hfront (chars_ok_map_digits hds1))
      (chars_ok_append hmid (chars_ok_append (chars_ok_map_digits hds2) hback)))
  have hmod1 : dval ds1 % 65536 = dval ds1 := Nat.mod_eq_of_lt (by omega)
  have hmod2 : dval (d :: ds2') % 65536 = dval (d :: ds2') := Nat.mod_eq_of_lt (by omega)
  have edig : t_isdigit ([d] : MChar) = true := by simp [t_isdigit_single]; omega
  have hscan : lqScan ([[42], [123]] ++ ds1.map (fun d => ([d] : MChar))
        ++ ([[44]] ++ ((d :: ds2').map (fun d => ([d] : MChar)) ++ [[125]]))) 0
        .waitLevel ⟨0, 0, 0, [], ⟨[], 0, 0, 0⟩, []⟩
      = .ok [⟨[], 0, dval ds1, dval (d :: ds2')⟩] := by
    rw [lqScan_star_brace ds1 ([[44]] ++ ((d :: ds2').map (fun d => ([d] : MChar))
        ++ [[125]])) hds1 hne1 (by
      intro c hc
      simp only [List.cons_append, List.head?_cons, Option.some.injEq] at hc
      subst hc
      rfl)]
    simp only [List.cons_append, List.nil_append, List.map_cons]
    rw [show lqScan (([44] : MChar) :: (([d] : MChar)
          :: (List.map (fun d => ([d] : MChar)) ds2' ++ [[125]]))) (2 + ds1.length)
          .waitNd ⟨0, dval ds1 % 65536, 0, [], ⟨[], 0, 0, 0⟩, []⟩
        = lqScan (([d] : MChar) :: (List.map (fun d => ([d] : MChar)) ds2' ++ [[125]]))
          (2 + ds1.length + 1) .waitSnum
          ⟨0, dval ds1 % 65536, 0, [], ⟨[], 0, 0, 0⟩, []⟩ by
      simp [lqScan, isOne, t_iseq]]
    rw [show lqScan (([d] : MChar) :: (List.map (fun d => ([d] : MChar)) ds2' ++ [[125]]))
          (2 + ds1.length + 1) .waitSnum
          ⟨0, dval ds1 % 65536, 0, [], ⟨[], 0, 0, 0⟩, []⟩
        = lqScan (List.map (fun d => ([d] : MChar)) ds2' ++ [[125]])
          (2 + ds1.length + 1 + 1) .waitClose
          ⟨0, dval ds1 % 65536, atoi (([d] : MChar)
            :: (List.map (fun d => ([d] : MChar)) ds2' ++ [[125]])) % 65536, [],
           ⟨[], 0, 0, 0⟩, []⟩ by
      simp only [lqScan, edig, if_true]]
    rw [show atoi (([d] : MChar) :: (List.map (fun d => ([d] : MChar)) ds2' ++ [[125]]))
        = dval (d :: ds2') by
      rw [show (([d] : MChar) :: (List.map (fun d => ([d] : MChar)) ds2' ++ [[125]]))
          = (d :: ds2').map (fun d => ([d] : MChar)) ++ [[125]] by simp]
      exact atoi_digits _ [[125]] hds2 (by
        intro c hc
        simp only [List.head?_cons, Option.some.injEq] at hc
        subst hc
        rfl)]
    rw [lqScan_digits_close ds2' [[125]] (2 + ds1.length + 1 + 1) _
      (fun x hx => hds2 x (by simp [hx]))]
    rw [show lqScan ([[125]] : MStr) (2 + ds1.length + 1 + 1 + ds2'.length) .waitClose
          ⟨0, dval ds1 % 65536, dval (d :: ds2') % 65536, [], ⟨[], 0, 0, 0⟩, []⟩
        = lqScan [] (2 + ds1.length + 1 + 1 + ds2'.length + 1) .waitEnd
          ⟨0, dval ds1 % 65536, dval (d :: ds2') % 65536, [], ⟨[], 0, 0, 0⟩, []⟩ by
      simp [lqScan, isOne, t_iseq]]
    rw [lqScan, hmod1, hmod2]
    simp
  have hbad : findBadQuant (([⟨[], 0, dval ds1, dval (d :: ds2')⟩] : List qlevelS).take
      (count_lquery_parts_ors ([[42], [123]] ++ ds1.map (fun d => ([d] : MChar))
        ++ ([[44]] ++ ((d :: ds2').map (fun d => ([d] : MChar)) ++ [[125]])))).1)
      = none := by
    rw [hcount]
    simp only [List.take]
    rw [findBadQuant]
    rw [if_neg (by simp)]
    rw [if_neg (by simp <;> omega)]
    rfl
  have hfill : lqFill (([⟨[], 0, dval ds1, dval (d :: ds2')⟩] : List qlevelS).take
      (count_lquery_parts_ors ([[42], [123]] ++ ds1.map (fun d => ([d] : MChar))
        ++ ([[44]] ++ ((d :: ds2').map (fun d => ([d] : MChar)) ++ [[125]])))).1) false
      = .ok ([⟨[], 0, dval ds1, dval (d :: ds2')⟩], 0) := by
    rw [hcount]
    show lqFill [⟨[], 0, dval ds1, dval (d :: ds2')⟩] false = _
    rw [lqFill]
    simp [lqFill]
  have hmain := lquery_in_build (by rw [hcount]; decide) hscan hbad hfill
  rw [hshape, hmain]
  simp

/-- C5: the quantifier brace semantics. With ds a decimal digit string of
value N (and ds2 of value M), *{N} gives low = high = N; *{N,} gives low = N,
high = 65535; *{,N} gives low = 0, high = N; *{N,M} gives low = N, high = M;
a bare * (at end of input or closed by a dot) gives low = 0, high = 65535. -/
theorem C5_quantifier_forms (ds1 ds2 : List Nat)
    (h1 : ds1 ≠ []) (hd1 : ∀ d ∈ ds1, 48 ≤ d ∧ d ≤ 57) (hv1 : dval ds1 ≤ 65535)
    (h2 : ds2 ≠ []) (hd2 : ∀ d ∈ ds2, 48 ≤ d ∧ d ≤ 57) (hv2 : dval ds2 ≤ 65535) :
    lquery_in ([[42], [123]] ++ ds1.map (fun d => ([d] : MChar)) ++ [[125]])
      = .ok ⟨[⟨[], 0, dval ds1, dval ds1⟩], 0, 0⟩ ∧
    lquery_in ([[42], [123]] ++ ds1.map (fun d => ([d] : MChar)) ++ [[44], [125]])
      = .ok ⟨[⟨[], 0, dval ds1, 65535⟩], 0, 0⟩ ∧
    lquery_in ([[42], [123], [44]] ++ ds1.map (fun d => ([d] : MChar)) ++ [[125]])
      = .ok ⟨[⟨[], 0, 0, dval ds1⟩], 0, 0⟩ ∧
    (dval ds1 ≤ dval ds2 →
      lquery_in ([[42], [123]] ++ ds1.map (fun d => ([d] : MChar)) ++ [[44]]
          ++ ds2.map (fun d => ([d] : MChar)) ++ [[125]])
        = .ok ⟨[⟨[], 0, dval ds1, dval ds2⟩], 0, 0⟩) ∧
    lquery_in [[42]] = .ok ⟨[⟨[], 0, 0, 65535⟩], 0, 0⟩ ∧
    lquery_in [[42], [46], [97]]
      = .ok ⟨[⟨[], 0, 0, 65535⟩, ⟨[⟨1, 0, [[97]]⟩], 0, 0, 0⟩], 0, 0⟩ :=
  ⟨c5a ds1 h1 hd1 hv1, c5b ds1 h1 hd1 hv1, c5c ds1 h1 hd1 hv1,
   fun hle => c5d ds1 ds2 h1 hd1 hv1 h2 hd2 hv2 hle, rfl, rfl⟩

/-- C5 witness at N = 7 (digits "7") and M = 12 (digits "12"). -/
theorem C5_quantifier_forms_witness :
    lquery_in ([[42], [123]] ++ [(7 + 48 : Nat)].map (fun d => ([d] : MChar)) ++ [[125]])
      = .ok ⟨[⟨[], 0, dval [55], dval [55]⟩], 0, 0⟩ ∧
    lquery_in ([[42], [123]] ++ [(55 : Nat)].map (fun d => ([d] : MChar)) ++ [[44], [125]])
      = .ok ⟨[⟨[], 0, dval [55], 65535⟩], 0, 0⟩ ∧
    lquery_in ([[42], [123], [44]] ++ [(55 : Nat)].map (fun d => ([d] : MChar)) ++ [[125]])
      = .ok ⟨[⟨[], 0, 0, dval [55]⟩], 0, 0⟩ ∧
    (dval [55] ≤ dval [49, 50] →
      lquery_in ([[42], [123]] ++ [(55 : Nat)].map (fun d => ([d] : MChar)) ++ [[44]]
          ++ [49, 50].map (fun d => ([d] : MChar)) ++ [[125]])
        = .ok ⟨[⟨[], 0, dval [55], dval [49, 50]⟩], 0, 0⟩) ∧
    lquery_in [[42]] = .ok ⟨[⟨[], 0, 0, 65535⟩], 0, 0⟩ ∧
    lquery_in [[42], [46], [97]]
      = .ok ⟨[⟨[], 0, 0, 65535⟩, ⟨[⟨1, 0, [[97]]⟩], 0, 0, 0⟩], 0, 0⟩ :=
  C5_quantifier_forms [55] [49, 50] (by decide) (by decide) (by decide)
    (by decide) (by decide) (by decide)

/-! ### C4: the fill passes never hit the internal-error branch -/

theorem lenB_singles : ∀ {s : MStr}, (∀ c ∈ s, c.length = 1) → lenB s = s.length := by
  intro s
  induction s with
  | nil => intro _; simp
  | cons c rest ih =>
    intro h
    have hc : c.length = 1 := h c (by simp)
    have := ih (fun d hd => h d (by simp [hd]))
    simp only [lenB_cons, List.length_cons]
    omega

theorem flagOnes_zero : flagOnes 0 = 0 := by decide

theorem lor_eq_zero_right {f b : Nat} (h : f ||| b = 0) : b = 0 := by
  apply Nat.eq_of_testBit_eq
  intro i
  have h2 := congrArg (fun x => x.testBit i) h
  simp only [Nat.testBit_or] at h2
  simp only [Nat.zero_testBit] at h2 ⊢
  simp at h2
  simp [h2.2]

theorem flagOnes_or (f b : Nat) (hb : b = 1 ∨ b = 2 ∨ b = 4) :
    flagOnes (f ||| b) ≤ flagOnes f + 1 := by
  rcases hb with hb | hb | hb <;> subst hb
  · have e4 : (f ||| 1) &&& 4 = f &&& 4 := by
      rw [Nat.and_distrib_right, show ((1 : Nat) &&& 4) = 0 from by decide]
      simp
    have e2 : (f ||| 1) &&& 2 = f &&& 2 := by
      rw [Nat.and_distrib_right, show ((1 : Nat) &&& 2) = 0 from by decide]
      simp
    simp only [flagOnes, LVAR_SUBLEXEME, LVAR_INCASE, LVAR_ANYEND, e4, e2]
    split_ifs <;> omega
  · have e4 : (f ||| 2) &&& 4 = f &&& 4 := by
      rw [Nat.and_distrib_right, show ((2 : Nat) &&& 4) = 0 from by decide]
      simp
    have e1 : (f ||| 2) &&& 1 = f &&& 1 := by
      rw [Nat.and_distrib_right, show ((2 : Nat) &&& 1) = 0 from by decide]
      simp
    simp only [flagOnes, LVAR_SUBLEXEME, LVAR_INCASE, LVAR_ANYEND, e4, e1]
    split_ifs <;> omega
  · have e2 : (f ||| 4) &&& 2 = f &&& 2 := by
      rw [Nat.and_distrib_right, show ((4 : Nat) &&& 2) = 0 from by decide]
      simp
    have e1 : (f ||| 4) &&& 1 = f &&& 1 := by
      rw [Nat.and_distrib_right, show ((4 : Nat) &&& 1) = 0 from by decide]
      simp
    simp only [flagOnes, LVAR_SUBLEXEME, LVAR_INCASE, LVAR_ANYEND, e2, e1]
    split_ifs <;> omega

theorem mchar_ne_nil {c : MChar} (hok : mcharOkb c = true) : c ≠ [] := by
  intro h
  rw [h] at hok
  exact absurd hok (by decide)

theorem mchar_t_iseq92 {c : MChar} (hok : mcharOkb c = true)
    (h92 : t_iseq c 92 = true) : c = [92] := by
  cases c with
  | nil => simp [t_iseq] at h92
  | cons b rest =>
    cases rest with
    | nil =>
      have hb : b = 92 := by simpa [t_iseq] using h92
      rw [hb]
    | cons b2 rest' =>
      exfalso
      have hb : b = 92 := by simpa [t_iseq] using h92
      have h2 : mcharOkb (b :: b2 :: rest')
          = (2 ≤ (b :: b2 :: rest').length
             && (b :: b2 :: rest').all (fun x => 128 ≤ x && x < 256)) := rfl
      rw [h2] at hok
      simp only [List.all_cons, Bool.and_eq_true, decide_eq_true_eq] at hok
      omega

/-- Invariant of a variant scratch record: its span is a well-escaped name
part followed by the modifier characters consumed so far, escaped counts the
dropped backslashes of the name part, and at most one modifier character was
consumed per flag bit set (a zero flag means no modifier was consumed). -/
def VarOk (v : qvar) : Prop :=
  ∃ ns ms, v.span = ns ++ ms ∧ wellEsc ns = true ∧ (∀ c ∈ v.span, c ≠ []) ∧
    (∀ c ∈ ms, c = [64] ∨ c = [42] ∨ c = [37]) ∧
    v.escaped + lenB (unesc ns) = lenB ns ∧
    flagOnes v.flag ≤ ms.length ∧ (v.flag = 0 → ms = [])

/-- Invariant of the in-progress variant in the WAITESCAPED state: its span
ends with the pending backslash. -/
def EscOk (v : qvar) : Prop :=
  ∃ ns, v.span = ns ++ [[92]] ∧ wellEsc ns = true ∧ (∀ c ∈ v.span, c ≠ []) ∧
    v.escaped + lenB (unesc ns) + 1 = lenB v.span ∧ v.flag = 0

theorem VarOk_mk_nil (w : Nat) : VarOk ⟨[], 0, w, 0⟩ :=
  ⟨[], [], rfl, rfl, by simp, by simp, by simp [unesc],
   by simp [flagOnes_zero], fun _ => rfl⟩

theorem VarOk_single {c : MChar} (hne : c ≠ []) (h92 : c ≠ [92]) (w : Nat) :
    VarOk ⟨[c], 0, w, 0⟩ := by
  refine ⟨[c], [], by simp, ?_, ?_, by simp, ?_, by simp [flagOnes_zero], fun _ => rfl⟩
  · exact wellEsc_noesc (by simpa using h92)
  · intro d hd
    have : d = c := by simpa using hd
    rw [this]; exact hne
  · rw [unesc_noesc (s := [c]) (by simpa using h92)]
    simp

theorem VarOk_snoc_mod {v : qvar} (h : VarOk v) {c : MChar}
    (hc : c = [64] ∨ c = [42] ∨ c = [37]) {B : Nat}
    (hB : B = 1 ∨ B = 2 ∨ B = 4) (w : Nat) :
    VarOk ⟨v.span ++ [c], v.flag ||| B, w, v.escaped⟩ := by
  obtain ⟨ns, ms, hsp, hw, hne, hms, hesc, hflag, _⟩ := h
  refine ⟨ns, ms ++ [c], ?_, hw, ?_, ?_, hesc, ?_, ?_⟩
  · show v.span ++ [c] = ns ++ (ms ++ [c])
    rw [hsp, List.append_assoc]
  · intro d hd
    rcases List.mem_append.mp hd with h' | h'
    · exact hne d h'
    · have : d = c := by simpa using h'
      rw [this]
      rcases hc with h'' | h'' | h'' <;> simp [h'']
  · intro d hd
    rcases List.mem_append.mp hd with h' | h'
    · exact hms d h'
    · have : d = c := by simpa using h'
      rw [this]; exact hc
  · show flagOnes (v.flag ||| B) ≤ (ms ++ [c]).length
    have h1 := flagOnes_or v.flag B hB
    simp only [List.length_append, List.length_cons, List.length_nil]
    omega
  · intro h0
    exfalso
    have hB0 : B = 0 := lor_eq_zero_right h0
    rcases hB with h'' | h'' | h'' <;> rw [h''] at hB0 <;> exact absurd hB0 (by decide)

theorem VarOk_snoc_plain {v : qvar} (h : VarOk v) (hz : v.flag = 0) {c : MChar}
    (hcne : c ≠ []) (hc92 : c ≠ [92]) (w : Nat) :
    VarOk ⟨v.span ++ [c], v.flag, w, v.escaped⟩ := by
  obtain ⟨ns, ms, hsp, hw, hne, hms, hesc, hflag, hz'⟩ := h
  have hms0 : ms = [] := hz' hz
  subst hms0
  rw [List.append_nil] at hsp
  refine ⟨ns ++ [c], [], ?_, wellEsc_snoc_plain hw hc92, ?_, by simp, ?_, ?_, fun _ => rfl⟩
  · rw [hsp]; simp
  · intro d hd
    rcases List.mem_append.mp hd with h' | h'
    · exact hne d h'
    · have : d = c := by simpa using h'
      rw [this]; exact hcne
  · show v.escaped + lenB (unesc (ns ++ [c])) = lenB (ns ++ [c])
    rw [unesc_snoc_plain hw hc92]
    simp only [lenB_append, lenB_cons, lenB_nil]
    omega
  · show flagOnes v.flag ≤ ([] : MStr).length
    rw [hz]; simp [flagOnes_zero]

theorem VarOk_snoc_escaped {v : qvar} (h : EscOk v) {c : MChar}
    (hcne : c ≠ []) (w : Nat) :
    VarOk ⟨v.span ++ [c], v.flag, w, v.escaped + 1⟩ := by
  obtain ⟨ns, hsp, hw, hne, hesc, hz⟩ := h
  refine ⟨ns ++ [[92], c], [], ?_, wellEsc_snoc_esc hw c, ?_, by simp, ?_, ?_, fun _ => rfl⟩
  · rw [List.append_nil, hsp, List.append_assoc]
    rfl
  · intro d hd
    rcases List.mem_append.mp hd with h' | h'
    · exact hne d h'
    · have : d = c := by simpa using h'
      rw [this]; exact hcne
  · show v.escaped + 1 + lenB (unesc (ns ++ [[92], c])) = lenB (ns ++ [[92], c])
    rw [unesc_snoc_esc hw c]
    have hsl : lenB v.span = lenB ns + 1 := by rw [hsp]; simp
    simp only [lenB_append, lenB_cons, lenB_nil, List.length_cons, List.length_nil]
    omega
  · show flagOnes v.flag ≤ ([] : MStr).length
    rw [hz]; simp [flagOnes_zero]

theorem EscOk_first : EscOk ⟨[[92]], 0, 0, 0⟩ :=
  ⟨[], rfl, rfl, by simp, by simp [unesc], rfl⟩

theorem EscOk_snoc {v : qvar} (h : VarOk v) (hz : v.flag = 0) (w : Nat) :
    EscOk ⟨v.span ++ [[92]], v.flag, w, v.escaped⟩ := by
  obtain ⟨ns, ms, hsp, hw, hne, hms, hesc, hflag, hz'⟩ := h
  have hms0 : ms = [] := hz' hz
  subst hms0
  rw [List.append_nil] at hsp
  refine ⟨ns, by rw [hsp], hw, ?_, ?_, hz⟩
  · intro d hd
    rcases List.mem_append.mp hd with h' | h'
    · exact hne d h'
    · have : d = [92] := by simpa using h'
      rw [this]; simp
  · show v.escaped + lenB (unesc ns) + 1 = lenB (v.span ++ [[92]])
    rw [hsp]
    simp only [lenB_append, lenB_cons, lenB_nil, List.length_cons, List.length_nil]
    omega

theorem fillVar_ok {v : qvar} (h : VarOk v) :
    ∃ nm, fillVar v = .ok ⟨v.len, v.flag, nm⟩ ∧ lenB nm = v.len := by
  obtain ⟨ns, ms, hsp, hw, hne, hms, hesc, hflag, _⟩ := h
  have hms92 : ∀ c ∈ ms, c ≠ [92] := by
    intro c hc; rcases hms c hc with h' | h' | h' <;> simp [h']
  have hms1 : ∀ c ∈ ms, c.length = 1 := by
    intro c hc; rcases hms c hc with h' | h' | h' <;> simp [h']
  have hwsp : wellEsc v.span = true := by
    rw [hsp]; exact wellEsc_append_noesc ms hw hms92
  have huneq : unesc v.span = unesc ns ++ ms := by
    rw [hsp]; exact unesc_append_noesc ms hw hms92
  have hmsl : lenB ms = ms.length := lenB_singles hms1
  have htake1 : ∀ c ∈ ms.take (ms.length - flagOnes v.flag), c.length = 1 :=
    fun c hc => hms1 c (List.mem_of_mem_take hc)
  have htlen : lenB (ms.take (ms.length - flagOnes v.flag))
       = ms.length - flagOnes v.flag := by
    rw [lenB_singles htake1, List.length_take]
    omega
  have hsl : lenB v.span = lenB ns + lenB ms := by rw [hsp]; simp
  have hvlen : v.len = lenB (unesc ns) + (ms.length - flagOnes v.flag) := by
    simp only [qvar.len]
    omega
  have hsplit : unesc v.span
      = (unesc ns ++ ms.take (ms.length - flagOnes v.flag))
        ++ ms.drop (ms.length - flagOnes v.flag) := by
    rw [huneq, List.append_assoc, List.take_append_drop]
  have hlenpre : lenB (unesc ns ++ ms.take (ms.length - flagOnes v.flag)) = v.len := by
    rw [lenB_append, htlen, hvlen]
  have hcopy := copy_unescaped_spec (s := v.span) []
    (unesc ns ++ ms.take (ms.length - flagOnes v.flag))
    (ms.drop (ms.length - flagOnes v.flag)) hwsp hne hsplit
  rw [List.append_nil, hlenpre] at hcopy
  refine ⟨unesc ns ++ ms.take (ms.length - flagOnes v.flag), ?_, hlenpre⟩
  simp only [fillVar, hcopy]

theorem fillVars_ok : ∀ (vs : List qvar), (∀ v ∈ vs, VarOk v) →
    ∃ out, fillVars vs = .ok out ∧ ∀ fv ∈ out, lenB fv.name = fv.len := by
  intro vs
  induction vs with
  | nil => intro _; exact ⟨[], rfl, by simp⟩
  | cons v rest ih =>
    intro h
    obtain ⟨nm, hfv, hlen⟩ := fillVar_ok (h v (by simp))
    obtain ⟨out, hout, hsz⟩ := ih (fun w hw => h w (by simp [hw]))
    refine ⟨⟨v.len, v.flag, nm⟩ :: out, ?_, ?_⟩
    · simp only [fillVars, hfv, hout]
    · intro fv hfv'
      rcases List.mem_cons.mp hfv' with h' | h'
      · rw [h']; exact hlen
      · exact hsz fv h'

theorem lqFill_ok : ∀ (ls : List qlevelS) (b : Bool),
    (∀ l ∈ ls, ∀ v ∈ l.vars, VarOk v) →
    ∃ out fg, lqFill ls b = .ok (out, fg) ∧
      ∀ l ∈ out, ∀ fv ∈ l.vars, lenB fv.name = fv.len := by
  intro ls
  induction ls with
  | nil => intro b _; exact ⟨[], 0, rfl, by simp⟩
  | cons l rest ih =>
    intro b h
    by_cases hv : l.vars.length ≠ 0
    · obtain ⟨vs, hvs, hsz⟩ := fillVars_ok l.vars (h l (by simp))
      obtain ⟨out, fg, hout, hsz'⟩ :=
        ih (b || (1 < l.vars.length || l.flag ≠ 0)) (fun l' hl' => h l' (by simp [hl']))
      refine ⟨⟨vs, l.flag, l.low, l.high⟩ :: out,
        (if !(1 < l.vars.length || l.flag ≠ 0 : Bool) && !b then 1 else 0) + fg, ?_, ?_⟩
      · simp only [lqFill, if_pos hv, hvs, hout]
      · intro l' hl' fv hfv
        rcases List.mem_cons.mp hl' with h' | h'
        · rw [h'] at hfv
          exact hsz fv hfv
        · exact hsz' l' h' fv hfv
    · obtain ⟨out, fg, hout, hsz'⟩ := ih true (fun l' hl' => h l' (by simp [hl']))
      refine ⟨⟨[], l.flag, l.low, l.high⟩ :: out, fg, ?_, ?_⟩
      · simp only [lqFill, if_neg hv, hout]
      · intro l' hl' fv hfv
        rcases List.mem_cons.mp hl' with h' | h'
        · rw [h'] at hfv
          simp at hfv
        · exact hsz' l' h' fv hfv

theorem lqScan_varOk : ∀ (s : MStr) (pos : Nat) (st : LqS) (S : LqSt)
    (out : List qlevelS),
    (∀ c ∈ s, mcharOkb c = true) →
    (∀ v ∈ S.closed, VarOk v) →
    (∀ l ∈ S.acc, ∀ v ∈ l.vars, VarOk v) →
    (st = .waitDelim → VarOk S.cur) →
    (st = .waitEscaped → EscOk S.cur) →
    lqScan s pos st S = .ok out →
    ∀ l ∈ out, ∀ v ∈ l.vars, VarOk v := by
  intro s
  induction s with
  | nil =>
    intro pos st S out hok hcl hacc hcur hesc hscan
    cases st with
    | waitDelim =>
      simp only [lqScan] at hscan
      split_ifs at hscan
      simp only [Except.ok.injEq] at hscan
      subst hscan
      intro l hl v hv
      rcases List.mem_append.mp hl with h | h
      · exact hacc l h v hv
      · have hl' : l = ⟨S.closed ++ [S.cur], S.lvFlag, S.low, S.high⟩ := by simpa using h
        rw [hl'] at hv
        rcases List.mem_append.mp hv with h' | h'
        · exact hcl v h'
        · have : v = S.cur := by simpa using h'
          rw [this]; exact hcur rfl
    | waitOpen =>
      simp only [lqScan, Except.ok.injEq] at hscan
      subst hscan
      intro l hl v hv
      rcases List.mem_append.mp hl with h | h
      · exact hacc l h v hv
      · have hl' : l = ⟨[], S.lvFlag, S.low, 65535⟩ := by simpa using h
        rw [hl'] at hv
        simp at hv
    | waitEnd =>
      simp only [lqScan, Except.ok.injEq] at hscan
      subst hscan
      intro l hl v hv
      rcases List.mem_append.mp hl with h | h
      · exact hacc l h v hv
      · have hl' : l = ⟨[], S.lvFlag, S.low, S.high⟩ := by simpa using h
        rw [hl'] at hv
        simp at hv
    | waitLevel => exact absurd hscan (by simp [lqScan])
    | waitVar => exact absurd hscan (by simp [lqScan])
    | waitFnum => exact absurd hscan (by simp [lqScan])
    | waitSnum => exact absurd hscan (by simp [lqScan])
    | waitNd => exact absurd hscan (by simp [lqScan])
    | waitClose => exact absurd hscan (by simp [lqScan])
    | waitEscaped => exact absurd hscan (by simp [lqScan])
  | cons c rest ih =>
    intro pos st S out hok hcl hacc hcur hesc hscan
    have hcok : mcharOkb c = true := hok c (by simp)
    have hcne : c ≠ [] := mchar_ne_nil hcok
    have hok' : ∀ d ∈ rest, mcharOkb d = true := fun d hd => hok d (by simp [hd])
    cases st with
    | waitLevel =>
      by_cases hlen : (c.length == 1) = true
      · by_cases h33 : t_iseq c 33 = true
        · simp only [lqScan, hlen, h33, if_true] at hscan
          refine ih _ _ _ _ hok' ?_ ?_ ?_ ?_ hscan
          · simp
          · exact hacc
          · exact fun _ => VarOk_mk_nil 1
          · exact fun h => nomatch h
        · by_cases h42 : t_iseq c 42 = true
          · simp only [lqScan, hlen, h33, h42, if_true, if_false,
              Bool.false_eq_true] at hscan
            refine ih _ _ _ _ hok' ?_ ?_ ?_ ?_ hscan
            · simp
            · exact hacc
            · exact fun h => nomatch h
            · exact fun h => nomatch h
          · by_cases h92 : t_iseq c 92 = true
            · have hc : c = [92] := mchar_t_iseq92 hcok h92
              subst hc
              simp only [lqScan, hlen, h33, h42, h92, if_true, if_false,
                Bool.false_eq_true] at hscan
              refine ih _ _ _ _ hok' ?_ ?_ ?_ ?_ hscan
              · simp
              · exact hacc
              · exact fun h => nomatch h
              · exact fun _ => EscOk_first
            · by_cases h46 : (t_iseq c 46 || t_iseq c 124) = true
              · simp only [lqScan, hlen, h33, h42, h92, h46, if_true, if_false,
                  Bool.false_eq_true] at hscan
                exact absurd hscan (by simp)
              · simp only [lqScan, hlen, h33, h42, h92, h46, if_true, if_false,
                  Bool.false_eq_true] at hscan
                have hc92 : c ≠ [92] := fun h => h92 (by rw [h]; rfl)
                refine ih _ _ _ _ hok' ?_ ?_ ?_ ?_ hscan
                · simp
                · exact hacc
                · exact fun _ => VarOk_single hcne hc92 1
                · exact fun h => nomatch h
      · simp only [lqScan, hlen, Bool.false_eq_true, if_false] at hscan
        have hc92 : c ≠ [92] := fun h => hlen (by rw [h]; rfl)
        refine ih _ _ _ _ hok' ?_ ?_ ?_ ?_ hscan
        · simp
        · exact hacc
        · exact fun _ => VarOk_single hcne hc92 1
        · exact fun h => nomatch h
    | waitVar =>
      by_cases h46 : (t_iseq c 46 || t_iseq c 124) = true
      · simp only [lqScan, h46, if_true] at hscan
        exact absurd hscan (by simp)
      · by_cases h92 : t_iseq c 92 = true
        · have hc : c = [92] := mchar_t_iseq92 hcok h92
          subst hc
          simp only [lqScan, h46, h92, if_true, if_false, Bool.false_eq_true] at hscan
          refine ih _ _ _ _ hok' ?_ ?_ ?_ ?_ hscan
          · exact hcl
          · exact hacc
          · exact fun h => nomatch h
          · exact fun _ => EscOk_first
        · simp only [lqScan, h46, h92, if_false, Bool.false_eq_true] at hscan
          have hc92 : c ≠ [92] := fun h => h92 (by rw [h]; rfl)
          refine ih _ _ _ _ hok' ?_ ?_ ?_ ?_ hscan
          · exact hcl
          · exact hacc
          · exact fun _ => VarOk_single hcne hc92 1
          · exact fun h => nomatch h
    | waitDelim =>
      have hv : VarOk S.cur := hcur rfl
      by_cases h64 : isOne c 64 = true
      · simp only [lqScan, h64, if_true] at hscan
        split_ifs at hscan
        · refine ih _ _ _ _ hok' ?_ ?_ ?_ ?_ hscan
          · exact hcl
          · exact hacc
          · exact fun _ => VarOk_snoc_mod hv (Or.inl (isOne_iff.mp h64))
              (Or.inr (Or.inl rfl)) (S.cur.wlen + 1)
          · exact fun h => nomatch h
      · by_cases h42 : isOne c 42 = true
        · simp only [lqScan, h64, h42, if_true, if_false, Bool.false_eq_true] at hscan
          split_ifs at hscan
          · refine ih _ _ _ _ hok' ?_ ?_ ?_ ?_ hscan
            · exact hcl
            · exact hacc
            · exact fun _ => VarOk_snoc_mod hv (Or.inr (Or.inl (isOne_iff.mp h42)))
                (Or.inl rfl) (S.cur.wlen + 1)
            · exact fun h => nomatch h
        · by_cases h37 : isOne c 37 = true
          · simp only [lqScan, h64, h42, h37, if_true, if_false,
              Bool.false_eq_true] at hscan
            split_ifs at hscan
            · refine ih _ _ _ _ hok' ?_ ?_ ?_ ?_ hscan
              · exact hcl
              · exact hacc
              · exact fun _ => VarOk_snoc_mod hv (Or.inr (Or.inr (isOne_iff.mp h37)))
                  (Or.inr (Or.inr rfl)) (S.cur.wlen + 1)
              · exact fun h => nomatch h
          · by_cases h124 : isOne c 124 = true
            · simp only [lqScan, h64, h42, h37, h124, if_true, if_false,
                Bool.false_eq_true] at hscan
              split_ifs at hscan
              · refine ih _ _ _ _ hok' ?_ ?_ ?_ ?_ hscan
                · intro v hv'
                  rcases List.mem_append.mp hv' with h' | h'
                  · exact hcl v h'
                  · have : v = S.cur := by simpa using h'
                    rw [this]; exact hv
                · exact hacc
                · exact fun h => nomatch h
                · exact fun h => nomatch h
            · by_cases h46 : isOne c 46 = true
              · simp only [lqScan, h64, h42, h37, h124, h46, if_true, if_false,
                  Bool.false_eq_true] at hscan
                split_ifs at hscan
                · refine ih _ _ _ _ hok' ?_ ?_ ?_ ?_ hscan
                  · simp
                  · intro l hl v' hv'
                    rcases List.mem_append.mp hl with h' | h'
                    · exact hacc l h' v' hv'
                    · have hl' : l = ⟨S.closed ++ [S.cur], S.lvFlag, S.low, S.high⟩ := by
                        simpa using h'
                      rw [hl'] at hv'
                      rcases List.mem_append.mp hv' with h'' | h''
                      · exact hcl v' h''
                      · have : v' = S.cur := by simpa using h''
                        rw [this]; exact hv
                  · exact fun h => nomatch h
                  · exact fun h => nomatch h
              · by_cases h92 : isOne c 92 = true
                · simp only [lqScan, h64, h42, h37, h124, h46, h92, if_true, if_false,
                    Bool.false_eq_true] at hscan
                  split_ifs at hscan with hfl
                  · have hz : S.cur.flag = 0 := by omega
                    have hc : c = [92] := isOne_iff.mp h92
                    subst hc
                    refine ih _ _ _ _ hok' ?_ ?_ ?_ ?_ hscan
                    · exact hcl
                    · exact hacc
                    · exact fun h => nomatch h
                    · exact fun _ => EscOk_snoc hv hz S.cur.wlen
                · simp only [lqScan, h64, h42, h37, h124, h46, h92, if_true, if_false,
                    Bool.false_eq_true] at hscan
                  split_ifs at hscan with hfl
                  · have hz : S.cur.flag = 0 := by omega
                    have hc92 : c ≠ [92] := fun h => h92 (isOne_iff.mpr h)
                    refine ih _ _ _ _ hok' ?_ ?_ ?_ ?_ hscan
                    · exact hcl
                    · exact hacc
                    · exact fun _ => VarOk_snoc_plain hv hz hcne hc92 (S.cur.wlen + 1)
                    · exact fun h => nomatch h
    | waitOpen =>
      by_cases h123 : isOne c 123 = true
      · simp only [lqScan, h123, if_true] at hscan
        refine ih _ _ _ _ hok' ?_ ?_ ?_ ?_ hscan
        · exact hcl
        · exact hacc
        · exact fun h => nomatch h
        · exact fun h => nomatch h
      · by_cases h46 : isOne c 46 = true
        · simp only [lqScan, h123, h46, if_true, if_false, Bool.false_eq_true] at hscan
          refine ih _ _ _ _ hok' ?_ ?_ ?_ ?_ hscan
          · simp
          · intro l hl v' hv'
            rcases List.mem_append.mp hl with h' | h'
            · exact hacc l h' v' hv'
            · have hl' : l = ⟨[], S.lvFlag, 0, 65535⟩ := by simpa using h'
              rw [hl'] at hv'
              simp at hv'
          · exact fun h => nomatch h
          · exact fun h => nomatch h
        · simp only [lqScan, h123, h46, if_false, Bool.false_eq_true] at hscan
          exact absurd hscan (by simp)
    | waitFnum =>
      by_cases h44 : isOne c 44 = true
      · simp only [lqScan, h44, if_true] at hscan
        refine ih _ _ _ _ hok' ?_ ?_ ?_ ?_ hscan
        · exact hcl
        · exact hacc
        · exact fun h => nomatch h
        · exact fun h => nomatch h
      · by_cases hd : t_isdigit c = true
        · simp only [lqScan, h44, hd, if_true, if_false, Bool.false_eq_true] at hscan
          refine ih _ _ _ _ hok' ?_ ?_ ?_ ?_ hscan
          · exact hcl
          · exact hacc
          · exact fun h => nomatch h
          · exact fun h => nomatch h
        · simp only [lqScan, h44, hd, if_false, Bool.false_eq_true] at hscan
          exact absurd hscan (by simp)
    | waitSnum =>
      by_cases hd : t_isdigit c = true
      · simp only [lqScan, hd, if_true] at hscan
        refine ih _ _ _ _ hok' ?_ ?_ ?_ ?_ hscan
        · exact hcl
        · exact hacc
        · exact fun h => nomatch h
        · exact fun h => nomatch h
      · by_cases h125 : isOne c 125 = true
        · simp only [lqScan, hd, h125, if_true, if_false, Bool.false_eq_true] at hscan
          refine ih _ _ _ _ hok' ?_ ?_ ?_ ?_ hscan
          · exact hcl
          · exact hacc
          · exact fun h => nomatch h
          · exact fun h => nomatch h
        · simp only [lqScan, hd, h125, if_false, Bool.false_eq_true] at hscan
          exact absurd hscan (by simp)
    | waitClose =>
      by_cases h125 : isOne c 125 = true
      · simp only [lqScan, h125, if_true] at hscan
        refine ih _ _ _ _ hok' ?_ ?_ ?_ ?_ hscan
        · exact hcl
        · exact hacc
        · exact fun h => nomatch h
        · exact fun h => nomatch h
      · by_cases hd : t_isdigit c = true
        · simp only [lqScan, h125, hd, Bool.not_true, if_true, if_false,
            Bool.false_eq_true] at hscan
          refine ih _ _ _ _ hok' ?_ ?_ ?_ ?_ hscan
          · exact hcl
          · exact hacc
          · exact fun h => nomatch h
          · exact fun h => nomatch h
        · simp only [lqScan, h125, hd, Bool.not_false, if_true, if_false,
            Bool.false_eq_true] at hscan
          exact absurd hscan (by simp)
    | waitNd =>
      by_cases h125 : isOne c 125 = true
      · simp only [lqScan, h125, if_true] at hscan
        refine ih _ _ _ _ hok' ?_ ?_ ?_ ?_ hscan
        · exact hcl
        · exact hacc
        · exact fun h => nomatch h
        · exact fun h => nomatch h
      · by_cases h44 : isOne c 44 = true
        · simp only [lqScan, h125, h44, if_true, if_false, Bool.false_eq_true] at hscan
          refine ih _ _ _ _ hok' ?_ ?_ ?_ ?_ hscan
          · exact hcl
          · exact hacc
          · exact fun h => nomatch h
          · exact fun h => nomatch h
        · by_cases hd : t_isdigit c = true
          · simp only [lqScan, h125, h44, hd, Bool.not_true, if_true, if_false,
              Bool.false_eq_true] at hscan
            refine ih _ _ _ _ hok' ?_ ?_ ?_ ?_ hscan
            · exact hcl
            · exact hacc
            · exact fun h => nomatch h
            · exact fun h => nomatch h
          · simp only [lqScan, h125, h44, hd, Bool.not_false, if_true, if_false,
              Bool.false_eq_true] at hscan
            exact absurd hscan (by simp)
    | waitEnd =>
      by_cases hc' : (c.length == 1 && (t_iseq c 46 || t_iseq c 124)) = true
      · simp only [lqScan, hc', if_true] at hscan
        refine ih _ _ _ _ hok' ?_ ?_ ?_ ?_ hscan
        · simp
        · intro l hl v' hv'
          rcases List.mem_append.mp hl with h' | h'
          · exact hacc l h' v' hv'
          · have hl' : l = ⟨[], S.lvFlag, S.low, S.high⟩ := by simpa using h'
            rw [hl'] at hv'
            simp at hv'
        · exact fun h => nomatch h
        · exact fun h => nomatch h
      · simp only [lqScan, hc', if_false, Bool.false_eq_true] at hscan
        exact absurd hscan (by simp)
    | waitEscaped =>
      simp only [lqScan] at hscan
      have he : EscOk S.cur := hesc rfl
      refine ih _ _ _ _ hok' ?_ ?_ ?_ ?_ hscan
      · exact hcl
      · exact hacc
      · exact fun _ => VarOk_snoc_escaped he hcne (S.cur.wlen + 1)
      · exact fun h => nomatch h

theorem lqScan_err : ∀ (s : MStr) (pos : Nat) (st : LqS) (S : LqSt) (e : PErr),
    lqScan s pos st S = .error e → e ≠ .internalErr := by
  intro s
  induction s with
  | nil =>
    intro pos st S e hscan
    cases st <;> simp only [lqScan] at hscan <;>
      first
        | (split_ifs at hscan <;>
            first
              | (simp only [Except.error.injEq] at hscan; subst hscan; simp)
              | exact absurd hscan (by simp))
        | (simp only [Except.error.injEq] at hscan; subst hscan; simp)
        | exact absurd hscan (by simp)
  | cons c rest ih =>
    intro pos st S e hscan
    cases st <;> simp only [lqScan] at hscan <;>
      first
        | (split_ifs at hscan <;>
            first
              | exact ih _ _ _ _ hscan
              | (simp only [Except.error.injEq] at hscan; subst hscan; simp))
        | exact ih _ _ _ _ hscan
        | (simp only [Except.error.injEq] at hscan; subst hscan; simp)

theorem lqScan_unchar : ∀ (s : MStr) (pos : Nat) (st : LqS) (S : LqSt) (p : Nat),
    lqScan s pos st S = .error (.unchar p) →
    ∃ pre c post, s = pre ++ c :: post ∧ pos + pre.length = p := by
  intro s
  induction s with
  | nil =>
    intro pos st S p hscan
    exfalso
    cases st <;> simp only [lqScan] at hscan <;>
      first
        | (split_ifs at hscan <;> simp at hscan)
        | simp at hscan
  | cons c rest ih =>
    intro pos st S p hscan
    cases st <;> simp only [lqScan] at hscan <;>
      first
        | (split_ifs at hscan <;>
            first
              | (obtain ⟨pre, c', post, hd, hp⟩ := ih _ _ _ _ hscan;
                 exact ⟨c :: pre, c', post, by simp [hd], by simp at hp ⊢; omega⟩)
              | (refine ⟨[], c, rest, by simp, ?_⟩;
                 simp only [Except.error.injEq, PErr.unchar.injEq] at hscan;
                 simpa using hscan)
              | (exfalso; exact PErr.noConfusion (Except.error.inj hscan)))
        | (obtain ⟨pre, c', post, hd, hp⟩ := ih _ _ _ _ hscan;
           exact ⟨c :: pre, c', post, by simp [hd], by simp at hp ⊢; omega⟩)
        | (refine ⟨[], c, rest, by simp, ?_⟩;
           simp only [Except.error.injEq, PErr.unchar.injEq] at hscan;
           simpa using hscan)

theorem ltree_in_err {buf : MStr} {e : PErr} (hne : ∀ c ∈ buf, c ≠ [])
    (h : ltree_in buf = .error e) : e ≠ .internalErr := by
  rw [ltree_in] at h
  split at h
  · simp only [Except.error.injEq] at h
    subst h
    simp
  · cases hscan : ltScan buf 0 .waitName ⟨[], 0, 0⟩ [] with
    | error e' =>
      rw [hscan] at h
      have he' : e' = e := by simpa using h
      subst he'
      exact ltScan_err _ _ _ _ _ _ hscan
    | ok items =>
      rw [hscan] at h
      have hinv := ltScan_ok_inv buf 0 .waitName ⟨[], 0, 0⟩ [] items hne trivial
        (by simp) hscan
      have h2 : ltreeFill items = Except.error e := h
      rw [ltreeFill_ok items hinv] at h2
      exact absurd h2 (by simp)

theorem lquery_in_err {buf : MStr} {e : PErr}
    (hok : ∀ c ∈ buf, mcharOkb c = true)
    (h : lquery_in buf = .error e) : e ≠ .internalErr := by
  rw [lquery_in] at h
  split at h
  · simp only [Except.error.injEq] at h
    subst h
    simp
  · cases hscan : lqScan buf 0 .waitLevel ⟨0, 0, 0, [], ⟨[], 0, 0, 0⟩, []⟩ with
    | error e' =>
      rw [hscan] at h
      have he' : e' = e := by simpa using h
      subst he'
      exact lqScan_err _ _ _ _ _ hscan
    | ok scanned =>
      rw [hscan] at h
      replace h : (match findBadQuant (scanned.take (count_lquery_parts_ors buf).1) with
        | some (lo, hi) => (Except.error (PErr.range lo hi) : Except PErr lquery)
        | none =>
          match lqFill (scanned.take (count_lquery_parts_ors buf).1) false with
          | Except.error e => Except.error e
          | Except.ok (ls, fg) =>
            Except.ok (⟨ls, fg,
              if scanned.any (fun l => (l.flag &&& LQL_NOT) != 0) then LQUERY_HASNOT
              else 0⟩ : lquery)) = Except.error e := h
      cases hbad : findBadQuant (scanned.take (count_lquery_parts_ors buf).1) with
      | some p =>
        obtain ⟨lo, hi⟩ := p
        rw [hbad] at h
        have h2 : (Except.error (PErr.range lo hi) : Except PErr lquery)
            = Except.error e := h
        have he : PErr.range lo hi = e := by simpa using h2
        subst he
        simp
      | none =>
        rw [hbad] at h
        have hvars := lqScan_varOk buf 0 .waitLevel ⟨0, 0, 0, [], ⟨[], 0, 0, 0⟩, []⟩
          scanned hok (by simp) (by simp) (fun h' => nomatch h') (fun h' => nomatch h')
          hscan
        obtain ⟨out, fg, hfill, _⟩ := lqFill_ok
          (scanned.take (count_lquery_parts_ors buf).1) false
          (fun l hl v hv => hvars l (List.mem_of_mem_take hl) v hv)
        rw [hfill] at h
        have h2 : (Except.ok (⟨out, fg,
            if scanned.any (fun l => (l.flag &&& LQL_NOT) != 0) then LQUERY_HASNOT
            else 0⟩ : lquery) : Except PErr lquery) = Except.error e := h
        exact absurd h2 (by simp)

/-- C4: on any well-formed multibyte input, each decoder either fails with a
classified (non-internal) error or returns a record in which every stored
name's byte length equals its recorded length field: the fill passes call
copy_unescaped with a length that cuts the span at a character boundary, so
the internal-error (overflow-of-bound) branch is unreachable. -/
theorem C4_fill_safe (buf : MStr) (hok : ∀ c ∈ buf, mcharOkb c = true) :
    ((∃ e, ltree_in buf = .error e ∧ e ≠ .internalErr) ∨
     (∃ ls, ltree_in buf = .ok ls ∧ ∀ l ∈ ls, lenB l.name = l.len)) ∧
    ((∃ e, lquery_in buf = .error e ∧ e ≠ .internalErr) ∨
     (∃ q, lquery_in buf = .ok q ∧
        ∀ l ∈ q.levels, ∀ v ∈ l.vars, lenB v.name = v.len)) := by
  have hne : ∀ c ∈ buf, c ≠ [] := fun c hc => mchar_ne_nil (hok c hc)
  constructor
  · cases hlt : ltree_in buf with
    | error e => exact Or.inl ⟨e, rfl, ltree_in_err hne hlt⟩
    | ok ls =>
      refine Or.inr ⟨ls, rfl, ?_⟩
      intro l hl
      exact (ltree_in_level_facts hne hlt l hl).1.symm
  · cases hlq : lquery_in buf with
    | error e => exact Or.inl ⟨e, rfl, lquery_in_err hok hlq⟩
    | ok q =>
      refine Or.inr ⟨q, rfl, ?_⟩
      obtain ⟨scanned, hscan, hbad, ls, fg, hfill, hq⟩ := lquery_in_ok_inv hlq
      have hvars := lqScan_varOk buf 0 .waitLevel ⟨0, 0, 0, [], ⟨[], 0, 0, 0⟩, []⟩
        scanned hok (by simp) (by simp) (fun h' => nomatch h') (fun h' => nomatch h')
        hscan
      obtain ⟨out, fg', hfill', hsz⟩ := lqFill_ok
        (scanned.take (count_lquery_parts_ors buf).1) false
        (fun l hl v hv => hvars l (List.mem_of_mem_take hl) v hv)
      rw [hfill'] at hfill
      have hout : out = ls ∧ fg' = fg := by simpa using hfill
      subst hq
      intro l hl v hv
      rw [← hout.1] at hl
      exact hsz l hl v hv

/-- C4 witness at the input a\.b: ltree_in stores one level named a.b of
length 3; lquery_in stores one level with the same single variant. -/
theorem C4_fill_safe_witness :
    ((∃ e, ltree_in [[97], [92], [46], [98]] = .error e ∧ e ≠ .internalErr) ∨
     (∃ ls, ltree_in [[97], [92], [46], [98]] = .ok ls ∧
        ∀ l ∈ ls, lenB l.name = l.len)) ∧
    ((∃ e, lquery_in [[97], [92], [46], [98]] = .error e ∧ e ≠ .internalErr) ∨
     (∃ q, lquery_in [[97], [92], [46], [98]] = .ok q ∧
        ∀ l ∈ q.levels, ∀ v ∈ l.vars, lenB v.name = v.len)) :=
  C4_fill_safe [[97], [92], [46], [98]] (by decide)

/-- C9 counterexample: in the input a.. the offending second dot is the third
character (1-based index 3), but both decoders report position 2: the pos
counter starts at 0 and is incremented only after a character is consumed,
so the reported position is the 0-based character index, not 1-based. -/
theorem C9_position_cex :
    ltree_in [[97], [46], [46]] = .error (.unchar 2) ∧
    lquery_in [[97], [46], [46]] = .error (.unchar 2) ∧ (2 : Nat) ≠ 3 :=
  ⟨rfl, rfl, by decide⟩

/-- C9 (amended): for well-formed multibyte input, the position reported with
a syntax error is the 0-based character index (counted in characters, not
bytes) of the offending character: the input splits as pre ++ c :: post with
pre.length = p, and for ltree_in the offending character is always an
unescaped dot. -/
theorem C9_position_0based (buf : MStr) (p : Nat)
    (hok : ∀ c ∈ buf, mcharOkb c = true) :
    (ltree_in buf = .error (.unchar p) →
      ∃ pre c post, buf = pre ++ c :: post ∧ pre.length = p ∧ isOne c 46 = true) ∧
    (lquery_in buf = .error (.unchar p) →
      ∃ pre c post, buf = pre ++ c :: post ∧ pre.length = p) := by
  have hne : ∀ c ∈ buf, c ≠ [] := fun c hc => mchar_ne_nil (hok c hc)
  constructor
  · intro h
    rw [ltree_in] at h
    split at h
    · simp at h
    · cases hscan : ltScan buf 0 .waitName ⟨[], 0, 0⟩ [] with
      | error e' =>
        rw [hscan] at h
        have he : e' = PErr.unchar p := by simpa using h
        subst he
        obtain ⟨pre, c, post, hd, hp, h46⟩ := ltScan_unchar buf 0 _ _ _ p hscan
        exact ⟨pre, c, post, hd, by simpa using hp, h46⟩
      | ok items =>
        rw [hscan] at h
        have hinv := ltScan_ok_inv buf 0 .waitName ⟨[], 0, 0⟩ [] items hne trivial
          (by simp) hscan
        have h2 : ltreeFill items = Except.error (PErr.unchar p) := h
        rw [ltreeFill_ok items hinv] at h2
        exact absurd h2 (by simp)
  · intro h
    rw [lquery_in] at h
    split at h
    · simp at h
    · cases hscan : lqScan buf 0 .waitLevel ⟨0, 0, 0, [], ⟨[], 0, 0, 0⟩, []⟩ with
      | error e' =>
        rw [hscan] at h
        have he : e' = PErr.unchar p := by simpa using h
        subst he
        obtain ⟨pre, c, post, hd, hp⟩ := lqScan_unchar buf 0 _ _ p hscan
        exact ⟨pre, c, post, hd, by simpa using hp⟩
      | ok scanned =>
        rw [hscan] at h
        replace h : (match findBadQuant (scanned.take (count_lquery_parts_ors buf).1) with
          | some (lo, hi) => (Except.error (PErr.range lo hi) : Except PErr lquery)
          | none =>
            match lqFill (scanned.take (count_lquery_parts_ors buf).1) false with
            | Except.error e => Except.error e
            | Except.ok (ls, fg) =>
              Except.ok (⟨ls, fg,
                if scanned.any (fun l => (l.flag &&& LQL_NOT) != 0) then LQUERY_HASNOT
                else 0⟩ : lquery)) = Except.error (PErr.unchar p) := h
        cases hbad : findBadQuant (scanned.take (count_lquery_parts_ors buf).1) with
        | some q =>
          obtain ⟨lo, hi⟩ := q
          rw [hbad] at h
          have h2 : (Except.error (PErr.range lo hi) : Except PErr lquery)
              = Except.error (PErr.unchar p) := h
          simp at h2
        | none =>
          rw [hbad] at h
          have hvars := lqScan_varOk buf 0 .waitLevel ⟨0, 0, 0, [], ⟨[], 0, 0, 0⟩, []⟩
            scanned hok (by simp) (by simp) (fun h' => nomatch h')
            (fun h' => nomatch h') hscan
          obtain ⟨out, fg, hfill, _⟩ := lqFill_ok
            (scanned.take (count_lquery_parts_ors buf).1) false
            (fun l hl v hv => hvars l (List.mem_of_mem_take hl) v hv)
          rw [hfill] at h
          have h2 : (Except.ok (⟨out, fg,
              if scanned.any (fun l => (l.flag &&& LQL_NOT) != 0) then LQUERY_HASNOT
              else 0⟩ : lquery) : Except PErr lquery)
              = Except.error (PErr.unchar p) := h
          exact absurd h2 (by simp)

/-- C9 witness at the input a.. and reported position 2. -/
theorem C9_position_0based_witness :
    (∀ c ∈ ([[97], [46], [46]] : MStr), mcharOkb c = true) ∧
    (ltree_in [[97], [46], [46]] = .error (.unchar 2) →
      ∃ pre c post, ([[97], [46], [46]] : MStr) = pre ++ c :: post ∧
        pre.length = 2 ∧ isOne c 46 = true) ∧
    (lquery_in [[97], [46], [46]] = .error (.unchar 2) →
      ∃ pre c post, ([[97], [46], [46]] : MStr) = pre ++ c :: post ∧ pre.length = 2) :=
  ⟨by decide, (C9_position_0based [[97], [46], [46]] 2 (by decide)).1,
   (C9_position_0based [[97], [46], [46]] 2 (by decide)).2⟩
